import Mathlib

/-!
Verification development for the timeline segmentation and consolidation
engine of `aw_export_daily_report/timeline_analyzer.py`.

Modelling conventions (shallow embedding):
* The engine ingests second-granularity events confined to one UTC calendar
  day.  Instants are integers counting seconds since midnight of that day,
  and durations are integers counting seconds, so
  `replace(hour=h, minute=0, second=0)` becomes
  `86400 * (t floordiv 86400) + h * 3600` and `.hour` becomes
  `(t floordiv 3600) mod 24`.  On whole-second values Python's `int(...)`
  and `round(...)` are the identity and are not written out.  Percentages
  are exact rationals; Python's float arithmetic is modelled as exact
  arithmetic and `round(x, 1)` as half-to-even rounding of the exact value.
* The `%H:%M` string fields `start_time` / `end_time` and the ISO fields
  `start_time_utc` / `end_time_utc` both denote instants; the former are
  modelled as the integer fields `start` / `stop` (always present), the
  latter as `startUtc` / `stopUtc` of type `Option` because the gap-AFK
  blocks built by `_create_time_blocks` and the synthetic idle activities
  lack those dictionary keys.  Dictionary keys that are absent in Python
  are modelled as `none` / `[]`.  Reading a key that a well-formed pipeline
  value always carries is modelled by `Option.getD`.
* Python `dict` preserves insertion order; association lists that append
  new keys at the end model it.  A Python `set` of window titles is
  modelled as a duplicate-free list in first-insertion order (the
  iteration order of a Python set is an arbitrary deterministic function
  of its contents; only membership and emptiness of these sets are read).
-/

/-- Half-to-even rounding of a rational to an integer, Python's `round(x)`,
computed on the numerator and denominator so that concrete values reduce:
for `x` with reduced numerator `n` and denominator `d`, the fractional part
of `x` compares to `1/2` as `2 * (n - floor * d)` compares to `d`. -/
def pyRound (x : ℚ) : ℤ :=
  let f := Int.fdiv x.num x.den
  let r2 := 2 * (x.num - f * (x.den : ℤ))
  if r2 < (x.den : ℤ) then f
  else if (x.den : ℤ) < r2 then f + 1
  else if f % 2 = 0 then f else f + 1

/-- Python `round(x, 1)`: round half to even, to one decimal place. -/
def pyRound1 (x : ℚ) : ℚ := mkRat (pyRound (mkRat (x.num * 10) x.den)) 10

/-- The stored `percentage`: Python's
`round((mainDuration / span) * 100, 1) if span > 0 else 0`. -/
def pctValue (mainDuration span : ℤ) : ℚ :=
  if 0 < span then pyRound1 (mkRat (mainDuration * 100) span.toNat) else 0

/-- `.hour` of an instant given as seconds since midnight of day zero. -/
def pyHour (t : ℤ) : ℤ := (Int.fdiv t 3600) % 24

/-- `.replace(hour=21, minute=0, second=0, microsecond=0)` on an instant. -/
def pyReplaceHour21 (t : ℤ) : ℤ := 86400 * Int.fdiv t 86400 + 75600

/-- One raw watcher event: `{timestamp, duration, app, title, afk}`. -/
structure Event where
  timestamp : ℤ
  duration : ℤ
  app : String
  title : String
  afk : Bool
deriving DecidableEq, Repr

/-- An event together with its `block_duration` (overlap with one slot),
as appended by `_get_events_in_block`. -/
structure BlockEvent where
  ev : Event
  blockDuration : ℤ
deriving DecidableEq, Repr

/-- One entry of an activity group's `events` list:
`{'start': ..., 'end': ..., 'title': ..., 'duration': ...}`. -/
structure Fragment where
  start : ℤ
  stop : ℤ
  title : String
  duration : ℤ
deriving DecidableEq, Repr

/-- A supporting activity record.  The analyzer also stores a
`primary_window` key on its supporting entries, but that key is never read
anywhere (consolidation drops it), so it is not modelled. -/
structure Support where
  app : String
  windows : List String
  duration : ℤ
  startUtc : Option ℤ
  stopUtc : Option ℤ
  events : List Fragment
deriving DecidableEq, Repr

/-- A block's `main_activity` record. -/
structure MainActivity where
  app : String
  rawApp : String
  primaryWindow : String
  windows : List String
  duration : ℤ
  percentage : ℚ
  startUtc : Option ℤ
  stopUtc : Option ℤ
  events : List Fragment
deriving DecidableEq, Repr

/-- One timeline block. -/
structure Block where
  start : ℤ
  stop : ℤ
  startUtc : Option ℤ
  stopUtc : Option ℤ
  duration : ℤ
  isAfk : Bool
  main : MainActivity
  supporting : List Support
deriving DecidableEq, Repr

/-- `_filter_active_events`: drop events that are AFK with duration at or
above the 120-second threshold, `loginwindow` events, and events shorter
than the 5-second minimum. -/
def filterActiveEvents (events : List Event) : List Event :=
  events.filter fun e =>
    (!(e.afk && decide ((120 : ℤ) ≤ e.duration)))
      && (decide (e.app ≠ "loginwindow"))
      && decide ((5 : ℤ) ≤ e.duration)

/-- `_get_events_in_block`: events overlapping `[blockStart, blockEnd)`,
enriched with the overlap length as `block_duration`. -/
def getEventsInBlock (blockStart blockEnd : ℤ) (events : List Event) :
    List BlockEvent :=
  events.filterMap fun e =>
    let es := e.timestamp
    let ee := es + e.duration
    if es < blockEnd ∧ blockStart < ee then
      let od := min ee blockEnd - max es blockStart
      if 0 < od then some ⟨e, od⟩ else none
    else none

/-- One accumulating entry of the analyzer's `activity_times` table. -/
structure ActEntry where
  app : String
  primaryWindow : String
  displayName : String
  duration : ℤ
  windows : List String
  events : List Fragment
deriving DecidableEq, Repr

/-- The freshly created `defaultdict` entry of `activity_times`. -/
def emptyEntry : ActEntry := ⟨"", "", "", 0, [], []⟩

/-- The grouping key `f"{app}:{title}"`. -/
def actKey (e : Event) : String := e.app ++ ":" ++ e.title

/-- Fold one block event into an `activity_times` entry (the body of the
inner loop of `_analyze_block`). -/
def addToEntry (en : ActEntry) (be : BlockEvent) : ActEntry :=
  let title := be.ev.title
  { app := be.ev.app
    primaryWindow := title
    displayName := if title ≠ "" then be.ev.app ++ " - " ++ title else be.ev.app
    duration := en.duration + be.blockDuration
    windows := if title ≠ "" ∧ title ∉ en.windows then en.windows ++ [title]
               else en.windows
    events := en.events ++
      [⟨be.ev.timestamp, be.ev.timestamp + be.ev.duration, title, be.blockDuration⟩] }

/-- Insert-or-update on the ordered association list `activity_times`
(new keys are appended at the end, like a Python dict). -/
def addEvent : List (String × ActEntry) → BlockEvent → List (String × ActEntry)
  | [], be => [(actKey be.ev, addToEntry emptyEntry be)]
  | (k, en) :: rest, be =>
    if k = actKey be.ev then (k, addToEntry en be) :: rest
    else (k, en) :: addEvent rest be

/-- Insert-or-append on the ordered association list `app_groups`. -/
def addToAppGroups : List (String × List BlockEvent) → BlockEvent →
    List (String × List BlockEvent)
  | [], be => [(be.ev.app, [be])]
  | (k, g) :: rest, be =>
    if k = be.ev.app then (k, g ++ [be]) :: rest
    else (k, g) :: addToAppGroups rest be

/-- Stable insertion into a list sorted descending by `f` (Python's stable
`sorted(..., reverse=True)`): an element placed by `insertDesc` goes in
front of the first element whose key is at most its own, so that elements
appearing earlier in the original list stay in front of equal-keyed later
ones. -/
def insertDesc {α β : Type} [LinearOrder β] (f : α → β) (x : α) :
    List α → List α
  | [] => [x]
  | y :: ys => if f y ≤ f x then x :: y :: ys else y :: insertDesc f x ys

/-- Stable sort, descending by `f`. -/
def sortDesc {α β : Type} [LinearOrder β] (f : α → β) (l : List α) : List α :=
  l.foldr (insertDesc f) []

/-- `min(e['start'] for e in events)` guarded by `if data['events']`. -/
def minStart (evs : List Fragment) : Option ℤ :=
  match evs with
  | [] => none
  | f :: fs => some (fs.foldl (fun m fr => min m fr.start) f.start)

/-- `max(e['end'] for e in events)` guarded by `if data['events']`. -/
def maxStop (evs : List Fragment) : Option ℤ :=
  match evs with
  | [] => none
  | f :: fs => some (fs.foldl (fun m fr => max m fr.stop) f.stop)

/-- Build a supporting-activity record from one surviving group. -/
def mkSupport (p : String × ActEntry) : Support :=
  { app := p.2.displayName
    windows := p.2.windows
    duration := p.2.duration
    startUtc := minStart p.2.events
    stopUtc := maxStop p.2.events
    events := p.2.events }

/-- `_analyze_block`: group a slot's overlapping events by the raw
`app:title` key (first grouped by app, preserving the dict iteration
order), drop groups below 60 seconds, sort descending by duration, and
build the block with the largest group as main activity.  Returns `none`
when no group survives.  The caller sets `is_afk = False` on the result. -/
def analyzeBlock (blockStart blockEnd : ℤ) (blockEvents : List BlockEvent) :
    Option Block :=
  let timelineDuration := blockEnd - blockStart
  let appGroups := blockEvents.foldl addToAppGroups []
  let ordered := (appGroups.map Prod.snd).flatten
  let activityTimes := ordered.foldl addEvent []
  if activityTimes.isEmpty then none
  else
    match sortDesc (fun p => p.2.duration)
        (activityTimes.filter fun p => decide ((60 : ℤ) ≤ p.2.duration)) with
    | [] => none
    | mainKD :: restKD =>
      some
        { start := blockStart
          stop := blockEnd
          startUtc := some blockStart
          stopUtc := some blockEnd
          duration := timelineDuration
          isAfk := false
          main :=
            { app := mainKD.2.displayName
              rawApp := mainKD.2.app
              primaryWindow := mainKD.2.primaryWindow
              windows := mainKD.2.windows
              duration := mainKD.2.duration
              percentage := pctValue mainKD.2.duration timelineDuration
              startUtc := minStart mainKD.2.events
              stopUtc := maxStop mainKD.2.events
              events := mainKD.2.events }
          supporting := restKD.map mkSupport }

/-- The AFK block inserted by `_create_time_blocks` for a gap between the
last active block and the current slot. -/
def gapAfkBlock (gapStart gapEnd : ℤ) : Block :=
  { start := gapStart
    stop := gapEnd
    startUtc := none
    stopUtc := none
    duration := gapEnd - gapStart
    isAfk := true
    main :=
      { app := "AFK / Inactive"
        rawApp := "AFK"
        primaryWindow := ""
        windows := []
        duration := gapEnd - gapStart
        percentage := 100
        startUtc := none
        stopUtc := none
        events := [] }
    supporting := [] }

/-- The body of the `while` loop of `_create_time_blocks` for one slot
start `t`: the state is the pair (blocks built so far,
`last_active_block_end`). -/
def slotStep (events : List Event) (st : List Block × Option ℤ) (t : ℤ) :
    List Block × Option ℤ :=
  let be := getEventsInBlock t (t + 900) events
  if be.isEmpty then st
  else
    let withGap :=
      match st.2 with
      | some e => if e < t then st.1 ++ [gapAfkBlock e t] else st.1
      | none => st.1
    match analyzeBlock t (t + 900) be with
    | some b => (withGap ++ [b], some (t + 900))
    | none => (withGap, st.2)

/-- The `while current_time < day_end` loop, with the iteration count
precomputed (the loop advances by the fixed 900-second slot size). -/
def createGo (events : List Event) : ℕ → ℤ → (List Block × Option ℤ) →
    List Block × Option ℤ
  | 0, _, st => st
  | n + 1, t, st => createGo events n (t + 900) (slotStep events st t)

/-- Number of iterations of the `while current_time < day_end` loop:
the least `n` with `dayStart + 900 * n` at or beyond `dayEnd`. -/
def numSlots (dayStart dayEnd : ℤ) : ℕ :=
  (Int.fdiv (dayEnd - dayStart + 899) 900).toNat

/-- `_create_time_blocks`. -/
def createTimeBlocks (dayStart dayEnd : ℤ) (events : List Event) :
    List Block :=
  (createGo events (numSlots dayStart dayEnd) dayStart ([], none)).1

/-- `_get_day_boundaries`: the working-day window 06:00 to 21:00 of the
(single) day the events belong to.  With instants modelled as seconds
since that day's midnight, `earliest.replace(hour=6, ...)` is `21600` and
`earliest.replace(hour=21, ...)` is `75600` for any earliest event. -/
def getDayBoundaries (_events : List Event) : ℤ × ℤ := (21600, 75600)

/-- `BROWSERS | EDITORS`: the app categories that must also match on
`primary_window` when merging. -/
def browsersEditors : List String :=
  ["Google Chrome", "Comet", "Safari", "Firefox", "Arc", "Brave",
   "Microsoft Edge",
   "Cursor", "Code", "Visual Studio Code", "Xcode", "PyCharm",
   "IntelliJ IDEA", "Sublime Text"]

/-- `_same_main_windows`: true when either main-activity window-title set
is empty, or the two sets intersect. -/
def sameMainWindows (b1 b2 : Block) : Bool :=
  let w1 := b1.main.windows
  let w2 := b2.main.windows
  if w1.isEmpty || w2.isEmpty then true
  else w1.any fun x => w2.contains x

/-- The `same_activity and self._same_main_windows(...)` guard of the
merge step: for a browser/editor current app both `raw_app` and
`primary_window` must match, otherwise `raw_app` equality suffices. -/
def mergeDecision (cur next : Block) : Bool :=
  let sameActivity :=
    if browsersEditors.contains cur.main.rawApp then
      decide (cur.main.rawApp = next.main.rawApp ∧
        cur.main.primaryWindow = next.main.primaryWindow)
    else decide (cur.main.rawApp = next.main.rawApp)
  sameActivity && sameMainWindows cur next

/-- One entry of the `app_data` accumulator of `_consolidate_supporting`. -/
structure ConsEntry where
  duration : ℤ
  windows : List String
  events : List Fragment
deriving DecidableEq, Repr

/-- `set.update`: fold new titles into the accumulated duplicate-free
window list, keeping first-insertion order. -/
def unionWindows (acc ws : List String) : List String :=
  ws.foldl (fun a w => if w ∈ a then a else a ++ [w]) acc

/-- Fold one supporting record into `app_data` (keyed by the display-name
`app` field; new keys are appended at the end). -/
def addSupport : List (String × ConsEntry) → Support →
    List (String × ConsEntry)
  | [], s => [(s.app, ⟨s.duration, unionWindows [] s.windows, s.events⟩)]
  | (k, en) :: rest, s =>
    if k = s.app then
      (k, ⟨en.duration + s.duration, unionWindows en.windows s.windows,
        en.events ++ s.events⟩) :: rest
    else (k, en) :: addSupport rest s

/-- Rebuild a supporting record from a consolidated `app_data` entry. -/
def consToSupport (p : String × ConsEntry) : Support :=
  { app := p.1
    windows := p.2.windows
    duration := p.2.duration
    startUtc := minStart p.2.events
    stopUtc := maxStop p.2.events
    events := p.2.events }

/-- The core of `_consolidate_supporting` on the concatenated supporting
lists: group by `app`, sum durations, union window sets, concatenate
events, then stable-sort descending by total duration. -/
def csupp (supports : List Support) : List Support :=
  (sortDesc (fun p => p.2.duration) (supports.foldl addSupport [])).map
    consToSupport

/-- `_consolidate_supporting` over a list of blocks. -/
def consolidateSupporting (blocks : List Block) : List Support :=
  csupp (blocks.map Block.supporting).flatten

/-- Starting a fresh accumulator in pass 1: `next_block.copy()` followed by
`current_block['supporting_activities'] = self._consolidate_supporting([current_block])`. -/
def startAcc (b : Block) : Block :=
  { b with supporting := consolidateSupporting [b] }

/-- The merge step of pass 1: extend the accumulator's end to the next
block's end (clamped to 21:00 when the next end's hour is at or past 21),
recompute the duration from the timestamp span, add the next block's
main-activity duration, and consolidate the supporting activities of both
blocks.  `end_time_utc` / `start_time_utc` are read from the blocks (a
non-AFK pipeline block always carries them; `getD` models the subscript). -/
def extendBlock (cur next : Block) : Block :=
  let endDt := next.stopUtc.getD 0
  let clamp := 21 ≤ pyHour endDt
  let newStop : ℤ := if clamp then pyReplaceHour21 endDt else next.stop
  let newStopUtc : Option ℤ :=
    if clamp then some (pyReplaceHour21 endDt) else next.stopUtc
  let newDuration : ℤ := newStopUtc.getD 0 - cur.startUtc.getD 0
  let curMid : Block :=
    { cur with
      stop := newStop
      stopUtc := newStopUtc
      duration := newDuration
      main := { cur.main with duration := cur.main.duration + next.main.duration } }
  { curMid with supporting := consolidateSupporting [curMid, next] }

/-- The loop of pass 1 over the remaining blocks, carrying the current
accumulator: an AFK block on either side flushes, a failed match flushes,
a successful match extends. -/
def pass1Go (cur : Block) : List Block → List Block
  | [] => [cur]
  | next :: rest =>
    if cur.isAfk || next.isAfk then cur :: pass1Go (startAcc next) rest
    else if mergeDecision cur next then pass1Go (extendBlock cur next) rest
    else cur :: pass1Go (startAcc next) rest

/-- Pass 1 (session merge) of `_merge_consecutive_blocks`. -/
def pass1 : List Block → List Block
  | [] => []
  | b :: rest => pass1Go (startAcc b) rest

/-- The synthetic idle main activity installed by the significance filter. -/
def idleMain (d : ℤ) : MainActivity :=
  { app := "AFK / Inactive"
    rawApp := "AFK"
    primaryWindow := ""
    windows := []
    duration := d
    percentage := 100
    startUtc := none
    stopUtc := none
    events := [] }

/-- The per-block body of the 10-percent significance filter. -/
def sigStep (b : Block) : Block :=
  if b.isAfk then b
  else if (10 : ℚ) ≤ b.main.percentage then b
  else { b with isAfk := true, main := idleMain b.duration, supporting := [] }

/-- Pass 1b: the significance filter. -/
def significancePass (l : List Block) : List Block := l.map sigStep

/-- Extending a pending AFK accumulator in pass 2: extend `end_time`
(always) and `end_time_utc` (only when the incoming block carries it), and
sum durations. -/
def extendAfk (a b : Block) : Block :=
  { a with
    stop := b.stop
    stopUtc := match b.stopUtc with | some u => some u | none => a.stopUtc
    duration := a.duration + b.duration }

/-- The loop of pass 2 (AFK coalescing), carrying the pending AFK
accumulator. -/
def coalesceGo : Option Block → List Block → List Block
  | acc, [] => match acc with | some a => [a] | none => []
  | acc, b :: rest =>
    if b.isAfk then
      match acc with
      | none => coalesceGo (some b) rest
      | some a => coalesceGo (some (extendAfk a b)) rest
    else
      match acc with
      | some a => a :: b :: coalesceGo none rest
      | none => b :: coalesceGo none rest

/-- Pass 2: merge consecutive AFK blocks. -/
def afkCoalesce (l : List Block) : List Block := coalesceGo none l

/-- `_merge_consecutive_blocks`: the empty-input guard, then pass 1,
pass 1b and pass 2. -/
def mergeConsecutiveBlocks (l : List Block) : List Block :=
  match l with
  | [] => []
  | _ :: _ => afkCoalesce (significancePass (pass1 l))

/-- The result record of `analyze` (the `date` string is omitted). -/
structure AnalyzeResult where
  timelineBlocks : List Block
  rawBlocks : List Block
  totalActiveTime : ℤ
deriving DecidableEq, Repr

/-- `analyze`: the full pipeline. -/
def analyze (events : List Event) : AnalyzeResult :=
  if events.isEmpty then ⟨[], [], 0⟩
  else
    let active := filterActiveEvents events
    if active.isEmpty then ⟨[], [], 0⟩
    else
      let bounds := getDayBoundaries active
      let raw := createTimeBlocks bounds.1 bounds.2 active
      let merged := mergeConsecutiveBlocks raw
      ⟨merged, raw, (merged.map Block.duration).sum⟩

/-! ### Predicates worded from the specification (for refinement claims)
and concrete fixtures -/

/-- The event filter's keep-condition as worded by the claim. -/
def specKeepEvent (e : Event) : Prop :=
  ¬(e.afk = true ∧ (120 : ℤ) ≤ e.duration) ∧ e.app ≠ "loginwindow" ∧
    (5 : ℤ) ≤ e.duration

instance : DecidablePred specKeepEvent := fun e => by
  unfold specKeepEvent; infer_instance

/-- Two events do not overlap in time. -/
def evDisjoint (a b : Event) : Prop :=
  a.timestamp + a.duration ≤ b.timestamp ∨
    b.timestamp + b.duration ≤ a.timestamp

instance (a b : Event) : Decidable (evDisjoint a b) := by
  unfold evDisjoint; infer_instance

/-- The keep-condition of `_get_events_in_block` as a boolean predicate. -/
def overlapsBlock (blockStart blockEnd : ℤ) (e : Event) : Bool :=
  decide (e.timestamp < blockEnd ∧ blockStart < e.timestamp + e.duration ∧
    0 < min (e.timestamp + e.duration) blockEnd - max e.timestamp blockStart)

/-- The enrichment of `_get_events_in_block`. -/
def clipEvent (blockStart blockEnd : ℤ) (e : Event) : BlockEvent :=
  ⟨e, min (e.timestamp + e.duration) blockEnd - max e.timestamp blockStart⟩

/-- Pipeline well-formedness of one block: the stored duration is the
timestamp span, the span is nonempty and inside the working-day window,
and non-AFK blocks carry `start_time_utc` / `end_time_utc` equal to
`start_time` / `end_time`. -/
def blockOk (b : Block) : Prop :=
  b.duration = b.stop - b.start ∧ b.start < b.stop ∧ b.stop ≤ 75600 ∧
    21600 ≤ b.start ∧
    (b.isAfk = false → b.startUtc = some b.start ∧ b.stopUtc = some b.stop)

/-- The blocks tile a contiguous span: each block starts where the
previous one ends. -/
def chainedBlocks (l : List Block) : Prop :=
  List.Chain' (fun a b => a.stop = b.start) l

/-- No slot of the 06:00-21:00 window has overlapping events yet no
activity group of at least 60 seconds (such a slot triggers the
double-gap-emission bug, claim C6). -/
def noDegenerateSlot (events : List Event) : Prop :=
  ∀ k : ℕ, k < 60 →
    getEventsInBlock (21600 + 900 * (k : ℤ)) (21600 + 900 * (k : ℤ) + 900)
        events ≠ [] →
    (analyzeBlock (21600 + 900 * (k : ℤ)) (21600 + 900 * (k : ℤ) + 900)
      (getEventsInBlock (21600 + 900 * (k : ℤ)) (21600 + 900 * (k : ℤ) + 900)
        events)).isSome

instance : DecidablePred noDegenerateSlot := fun events => by
  unfold noDegenerateSlot; infer_instance

/-- Adjacent blocks are not both AFK (the coalescing invariant). -/
def notBothAfk (u v : Block) : Prop := ¬(u.isAfk = true ∧ v.isAfk = true)

/-- The pass-1 same-activity condition as worded by the claim: for a
browser/editor current app both raw app and primary window must be equal,
otherwise raw app equality suffices; additionally the two main-activity
window-title sets must intersect, or one of them must be empty. -/
def specSameActivity (cur next : Block) : Prop :=
  (if cur.main.rawApp ∈ browsersEditors then
    cur.main.rawApp = next.main.rawApp ∧
      cur.main.primaryWindow = next.main.primaryWindow
  else cur.main.rawApp = next.main.rawApp)
  ∧ ((∃ w ∈ cur.main.windows, w ∈ next.main.windows) ∨
      cur.main.windows = [] ∨ next.main.windows = [])

/-- A concrete 15-minute Terminal block (slot 20:00). -/
def termBlock1 : Block :=
  { start := 72000
    stop := 72900
    startUtc := some 72000
    stopUtc := some 72900
    duration := 900
    isAfk := false
    main :=
      { app := "Terminal - w", rawApp := "Terminal", primaryWindow := "w",
        windows := ["w"], duration := 900, percentage := 100,
        startUtc := some 72000, stopUtc := some 72900,
        events := [⟨72000, 72900, "w", 900⟩] }
    supporting := [] }

/-- A matching Terminal block whose end crosses 21:00 (ends 21:15). -/
def termBlock2 : Block :=
  { start := 72900
    stop := 76500
    startUtc := some 72900
    stopUtc := some 76500
    duration := 3600
    isAfk := false
    main :=
      { app := "Terminal - w", rawApp := "Terminal", primaryWindow := "w",
        windows := ["w"], duration := 600, percentage := 50,
        startUtc := some 72900, stopUtc := some 76500,
        events := [⟨72900, 76500, "w", 600⟩] }
    supporting := [] }

/-- A matching Terminal block after 21:00 (21:15 to 21:30). -/
def termBlock3 : Block :=
  { start := 76500
    stop := 77400
    startUtc := some 76500
    stopUtc := some 77400
    duration := 900
    isAfk := false
    main :=
      { app := "Terminal - w", rawApp := "Terminal", primaryWindow := "w",
        windows := ["w"], duration := 300, percentage := mkRat 333 10,
        startUtc := some 76500, stopUtc := some 77400,
        events := [⟨76500, 77400, "w", 300⟩] }
    supporting := [] }

/-- Events exercising a slot that has overlapping events but no activity
group of at least 60 seconds: a qualifying slot at 06:00, a 50-second
event at 06:30, and a qualifying slot at 06:45. -/
def c6Events : List Event :=
  [⟨21600, 900, "A", "x", false⟩,
   ⟨23400, 50, "B", "y", false⟩,
   ⟨24300, 900, "A", "x", false⟩]

/-- The block the analyzer builds from one 600-second event in the slot
`[0, 900)`. -/
def c2WitnessBlock : Block :=
  { start := 0
    stop := 900
    startUtc := some 0
    stopUtc := some 900
    duration := 900
    isAfk := false
    main :=
      { app := "A - x", rawApp := "A", primaryWindow := "x",
        windows := ["x"], duration := 600,
        percentage := pctValue 600 900, startUtc := some 0,
        stopUtc := some 600, events := [⟨0, 600, "x", 600⟩] }
    supporting := [] }

/-- The single merged block `analyze` produces from one event covering the
first slot of the day window. -/
def c1WitnessBlock : Block :=
  { start := 21600
    stop := 22500
    startUtc := some 21600
    stopUtc := some 22500
    duration := 900
    isAfk := false
    main :=
      { app := "A - x", rawApp := "A", primaryWindow := "x",
        windows := ["x"], duration := 900, percentage := 100,
        startUtc := some 21600, stopUtc := some 22500,
        events := [⟨21600, 22500, "x", 900⟩] }
    supporting := [] }

/-- A concrete non-AFK block whose main activity sits at 5 percent. -/
def lowBlock : Block :=
  { start := 0
    stop := 900
    startUtc := some 0
    stopUtc := some 900
    duration := 900
    isAfk := false
    main :=
      { app := "A", rawApp := "A", primaryWindow := "", windows := [],
        duration := 45, percentage := 5, startUtc := none, stopUtc := none,
        events := [] }
    supporting := [] }

/-- Two blocks that pass 1 would not merge when adjacent: one of them is
AFK, or the merge guard rejects the pair. -/
def mergeApart (u v : Block) : Prop :=
  u.isAfk = true ∨ v.isAfk = true ∨ mergeDecision u v = false

/-- Two blocks that the whole merger leaves adjacent and untouched: not
both AFK (pass 2 would coalesce them), and when both are active the merge
guard rejects the pair (pass 1 would extend). -/
def sessionApart (u v : Block) : Prop :=
  ¬(u.isAfk = true ∧ v.isAfk = true) ∧
    (u.isAfk = false → v.isAfk = false → mergeDecision u v = false)

/-! ### Helper lemmas -/

/-- Membership in the output of the coalescing loop: a non-AFK output block
is one of the input blocks (the accumulator only ever holds AFK blocks). -/
theorem mem_coalesceGo_of_not_afk :
    ∀ (l : List Block) (acc : Option Block) (b : Block),
      (∀ a, acc = some a → a.isAfk = true) →
      b ∈ coalesceGo acc l → b.isAfk = false → b ∈ l := by
  intro l
  induction l with
  | nil =>
    intro acc b hacc hb hfalse
    cases acc with
    | none => simp [coalesceGo] at hb
    | some a =>
      simp [coalesceGo] at hb
      rw [hb, hacc a rfl] at hfalse
      cases hfalse
  | cons c rest ih =>
    intro acc b hacc hb hfalse
    by_cases hc : c.isAfk
    · cases acc with
      | none =>
        simp only [coalesceGo, hc, if_pos] at hb
        exact List.mem_cons_of_mem _ (ih _ _ (by intro a ha; cases ha; exact hc) hb hfalse)
      | some a =>
        simp only [coalesceGo, hc, if_pos] at hb
        have : b ∈ rest := by
          refine ih _ _ ?_ hb hfalse
          intro x hx
          cases hx
          simp [extendAfk, hacc a rfl]
        exact List.mem_cons_of_mem _ this
    · cases acc with
      | none =>
        simp only [coalesceGo, hc, if_neg, Bool.false_eq_true, not_false_iff] at hb
        rcases List.mem_cons.mp hb with h | h
        · exact h ▸ List.mem_cons_self _ _
        · exact List.mem_cons_of_mem _ (ih _ _ (by intro a ha; cases ha) h hfalse)
      | some a =>
        simp only [coalesceGo, hc, if_neg, Bool.false_eq_true, not_false_iff] at hb
        rcases List.mem_cons.mp hb with h | h
        · subst h
          rw [hacc b rfl] at hfalse
          cases hfalse
        · rcases List.mem_cons.mp h with h2 | h2
          · exact h2 ▸ List.mem_cons_self _ _
          · exact List.mem_cons_of_mem _ (ih _ _ (by intro a ha; cases ha) h2 hfalse)

/-- A non-AFK output of the significance filter is an unchanged input block
whose percentage is at least 10. -/
theorem sig_nonafk_ge :
    ∀ (l : List Block) (b : Block), b ∈ significancePass l →
      b.isAfk = false → b ∈ l ∧ (10 : ℚ) ≤ b.main.percentage := by
  intro l b hb hfalse
  rcases List.mem_map.mp hb with ⟨a, ha, rfl⟩
  by_cases h1 : a.isAfk
  · rw [sigStep, if_pos h1] at hfalse
    rw [hfalse] at h1
    cases h1
  · by_cases h2 : (10 : ℚ) ≤ a.main.percentage
    · have hstep : sigStep a = a := by rw [sigStep, if_neg h1, if_pos h2]
      rw [hstep]
      exact ⟨ha, h2⟩
    · have : (sigStep a).isAfk = true := by
        rw [sigStep, if_neg h1, if_neg h2]
      rw [this] at hfalse
      cases hfalse

/-- Non-AFK blocks in the fully merged output have significant main
activity. -/
theorem merged_nonafk_ge (l : List Block) (b : Block)
    (hb : b ∈ mergeConsecutiveBlocks l) (hfalse : b.isAfk = false) :
    (10 : ℚ) ≤ b.main.percentage := by
  unfold mergeConsecutiveBlocks at hb
  match l, hb with
  | [], hb => cases hb
  | c :: rest, hb =>
    have hmem : b ∈ significancePass (pass1 (c :: rest)) :=
      mem_coalesceGo_of_not_afk _ none b (by intro a ha; cases ha) hb hfalse
    exact (sig_nonafk_ge _ b hmem hfalse).2

/-! ### Claim theorems -/

/-- `extendAfk` leaves the AFK flag of the accumulator unchanged. -/
theorem extendAfk_isAfk (a b : Block) : (extendAfk a b).isAfk = a.isAfk := rfl

/-- `extendAfk` takes the incoming block's `end_time`. -/
theorem extendAfk_stop (a b : Block) : (extendAfk a b).stop = b.stop := rfl

/-- Folding a run of blocks into an AFK accumulator keeps its AFK flag. -/
theorem foldl_extendAfk_isAfk :
    ∀ (rs : List Block) (a : Block), (rs.foldl extendAfk a).isAfk = a.isAfk := by
  intro rs
  induction rs with
  | nil => intro a; rfl
  | cons r rs' ih => intro a; rw [List.foldl_cons, ih, extendAfk_isAfk]

/-- Folding a run of blocks into an AFK accumulator sums the durations. -/
theorem foldl_extendAfk_duration :
    ∀ (rs : List Block) (a : Block),
      (rs.foldl extendAfk a).duration = a.duration + (rs.map Block.duration).sum := by
  intro rs
  induction rs with
  | nil => intro a; simp
  | cons r rs' ih =>
    intro a
    rw [List.foldl_cons, ih]
    simp [extendAfk]
    ring

/-- Folding a run of blocks into an AFK accumulator sets the end to the
last block's end. -/
theorem foldl_extendAfk_stop :
    ∀ (rs : List Block) (a : Block) (z : Block),
      (a :: rs).getLast? = some z → (rs.foldl extendAfk a).stop = z.stop := by
  intro rs
  induction rs with
  | nil =>
    intro a z hz
    simp only [List.getLast?_singleton, Option.some_inj] at hz
    rw [← hz]
    rfl
  | cons r rs' ih =>
    intro a z hz
    rw [List.getLast?_cons_cons] at hz
    rw [List.foldl_cons]
    cases rs' with
    | nil =>
      simp only [List.getLast?_singleton, Option.some_inj] at hz
      simp only [List.foldl_nil]
      rw [← hz, extendAfk_stop]
    | cons s rs'' =>
      rw [List.getLast?_cons_cons] at hz
      exact ih (extendAfk a r) z (by rw [List.getLast?_cons_cons]; exact hz)

/-- The coalescing loop on a leading all-AFK run that is eventually flushed
by a non-AFK block. -/
theorem coalesceGo_append_run :
    ∀ (rs : List Block) (a b : Block) (rest : List Block),
      (∀ x ∈ rs, x.isAfk = true) → b.isAfk = false →
      coalesceGo (some a) (rs ++ b :: rest) =
        (rs.foldl extendAfk a) :: b :: coalesceGo none rest := by
  intro rs
  induction rs with
  | nil =>
    intro a b rest _ hb
    simp [coalesceGo, hb]
  | cons r rs' ih =>
    intro a b rest hall hb
    have hr : r.isAfk = true := hall r (List.mem_cons_self _ _)
    simp only [List.cons_append, coalesceGo, hr, if_pos, List.foldl_cons]
    exact ih (extendAfk a r) b rest (fun x hx => hall x (List.mem_cons_of_mem _ hx)) hb

/-- The coalescing loop on a trailing all-AFK run. -/
theorem coalesceGo_all_run :
    ∀ (rs : List Block) (a : Block), (∀ x ∈ rs, x.isAfk = true) →
      coalesceGo (some a) rs = [rs.foldl extendAfk a] := by
  intro rs
  induction rs with
  | nil => intro a _; rfl
  | cons r rs' ih =>
    intro a hall
    have hr : r.isAfk = true := hall r (List.mem_cons_self _ _)
    simp only [coalesceGo, hr, if_pos, List.foldl_cons]
    exact ih (extendAfk a r) (fun x hx => hall x (List.mem_cons_of_mem _ hx))

/-- The output of the coalescing loop never has two adjacent AFK blocks,
for any input and any pending accumulator. -/
theorem chain_notBothAfk_coalesceGo :
    ∀ (l : List Block) (acc : Option Block),
      List.Chain' notBothAfk (coalesceGo acc l) := by
  intro l
  induction l with
  | nil =>
    intro acc
    cases acc with
    | none => simp [coalesceGo]
    | some a => simp [coalesceGo]
  | cons b rest ih =>
    intro acc
    by_cases hb : b.isAfk
    · cases acc with
      | none => simp only [coalesceGo, hb, if_pos]; exact ih (some b)
      | some a => simp only [coalesceGo, hb, if_pos]; exact ih (some (extendAfk a b))
    · have htail : List.Chain' notBothAfk (b :: coalesceGo none rest) := by
        rw [List.chain'_cons']
        refine ⟨?_, ih none⟩
        intro h _ hcon
        exact hb hcon.1
      cases acc with
      | none =>
        simp only [coalesceGo, hb, Bool.false_eq_true, if_false]
        exact htail
      | some a =>
        simp only [coalesceGo, hb, Bool.false_eq_true, if_false]
        rw [List.chain'_cons']
        refine ⟨?_, htail⟩
        intro h hh
        simp only [List.head?_cons, Option.mem_def, Option.some_inj] at hh
        subst hh
        intro hcon
        exact hb hcon.2

/-- Claim C10: for every input, the returned `total_active_time` equals the
sum of `duration` over all blocks of `timeline_blocks`, with no block
excluded: AFK and idle blocks are counted in the reported total. -/
theorem c10_total_active_time (events : List Event) :
    (analyze events).totalActiveTime =
      ((analyze events).timelineBlocks.map Block.duration).sum := by
  unfold analyze
  by_cases h1 : events.isEmpty
  · simp [h1]
  · by_cases h2 : (filterActiveEvents events).isEmpty <;> simp [h1, h2]

/-- Claim C8 (counterexample): the claim also asserts that every AFK event
of duration strictly below 120 seconds is kept, but an AFK event of
3 seconds is dropped by the 5-second minimum. -/
theorem c8_counterexample :
    filterActiveEvents [⟨0, 3, "X", "t", true⟩] = [] ∧
      (⟨0, 3, "X", "t", true⟩ : Event).afk = true ∧ (3 : ℤ) < 120 := by
  decide

/-- Claim C8 (amended): the filter returns exactly the sub-list of events,
in order, that are not (AFK with duration at least 120 s), are not
`loginwindow`, and last at least 5 s; an AFK event shorter than 120 s is
not excluded by the AFK rule, so it is kept whenever it also satisfies the
other two conditions.  (The filter is a pure function of the input list.) -/
theorem c8_amended_filter (events : List Event) :
    filterActiveEvents events =
      events.filter (fun e => decide (specKeepEvent e)) ∧
    ∀ e ∈ events, e.afk = true → e.duration < 120 → (5 : ℤ) ≤ e.duration →
      e.app ≠ "loginwindow" → e ∈ filterActiveEvents events := by
  constructor
  · apply List.filter_congr
    intro e _
    unfold specKeepEvent
    by_cases ha : e.afk <;>
      by_cases h120 : (120 : ℤ) ≤ e.duration <;>
        by_cases hl : e.app = "loginwindow" <;>
          by_cases h5 : (5 : ℤ) ≤ e.duration <;>
            simp [filterActiveEvents, ha, h120, hl, h5]
  · intro e he hafk h120 h5 hlogin
    unfold filterActiveEvents
    refine List.mem_filter.mpr ⟨he, ?_⟩
    simp [hafk, not_le.mpr h120, h5, hlogin]

/-- Claim C8 (witness). -/
theorem c8_amended_filter_witness :
    (⟨0, 30, "X", "t", true⟩ : Event) ∈
      filterActiveEvents [⟨0, 30, "X", "t", true⟩] :=
  (c8_amended_filter [⟨0, 30, "X", "t", true⟩]).2 _ (by decide) (by decide)
    (by decide) (by decide) (by decide)

/-- The window-overlap test of `_same_main_windows`, in propositional
form. -/
theorem sameMainWindows_iff (b1 b2 : Block) :
    sameMainWindows b1 b2 = true ↔
      ((∃ w ∈ b1.main.windows, w ∈ b2.main.windows) ∨
        b1.main.windows = [] ∨ b2.main.windows = []) := by
  unfold sameMainWindows
  by_cases h1 : b1.main.windows.isEmpty
  · simp [h1, List.isEmpty_iff.mp h1]
  · by_cases h2 : b2.main.windows.isEmpty
    · simp [h1, h2, List.isEmpty_iff.mp h2]
    · have e1 : b1.main.windows ≠ [] := by simpa [List.isEmpty_iff] using h1
      have e2 : b2.main.windows ≠ [] := by simpa [List.isEmpty_iff] using h2
      simp [h1, h2, e1, e2, List.any_eq_true, List.elem_iff]

/-- Claim C3: in pass-1 merging, two consecutive non-AFK blocks are merged
exactly when the code's decision holds, and that decision is equivalent to
the claimed condition: for a browser/editor current app both raw app and
primary window must be equal (raw-app equality alone otherwise), and the
two main-activity window-title sets intersect or one of them is empty. -/
theorem c3_merge_condition (cur next : Block) (hc : cur.isAfk = false)
    (hn : next.isAfk = false) :
    (mergeDecision cur next = true ↔ specSameActivity cur next) ∧
    ∀ rest, pass1Go cur (next :: rest) =
      if mergeDecision cur next then pass1Go (extendBlock cur next) rest
      else cur :: pass1Go (startAcc next) rest := by
  constructor
  · unfold mergeDecision specSameActivity
    by_cases hbe : cur.main.rawApp ∈ browsersEditors
    · have hb : browsersEditors.contains cur.main.rawApp = true :=
        List.elem_iff.mpr hbe
      rw [if_pos hbe, hb, if_pos rfl, Bool.and_eq_true, decide_eq_true_eq,
        sameMainWindows_iff]
    · have hb : browsersEditors.contains cur.main.rawApp = false := by
        rw [← Bool.not_eq_true]
        intro hcon
        exact hbe (List.elem_iff.mp hcon)
      rw [if_neg hbe, hb]
      simp only [Bool.false_eq_true, if_false]
      rw [Bool.and_eq_true, decide_eq_true_eq, sameMainWindows_iff]
  · intro rest
    rw [pass1Go, hc, hn]
    simp

/-- Claim C3 (witness). -/
theorem c3_merge_condition_witness :
    mergeDecision termBlock1 termBlock2 = true ↔
      specSameActivity termBlock1 termBlock2 :=
  (c3_merge_condition termBlock1 termBlock2 (by decide) (by decide)).1

/-- Claim C5: the significance filter reclassifies, in place, every non-AFK
pass-1 block whose main percentage is below 10 as AFK with a synthetic idle
main activity covering the full block duration at 100 percent and an empty
supporting list; blocks at or above 10 percent and AFK blocks pass through
unchanged; consequently every non-AFK block of the merger's final output
has `main_activity.percentage` at least 10. -/
theorem c5_significance_filter (b : Block) (l : List Block) :
    (significancePass l = l.map sigStep) ∧
    (b.isAfk = true → sigStep b = b) ∧
    (b.isAfk = false → (10 : ℚ) ≤ b.main.percentage → sigStep b = b) ∧
    (b.isAfk = false → b.main.percentage < 10 →
      sigStep b = { b with
        isAfk := true
        main := idleMain b.duration
        supporting := [] } ∧
      (sigStep b).isAfk = true ∧ (sigStep b).main.duration = b.duration ∧
      (sigStep b).main.percentage = 100 ∧ (sigStep b).supporting = []) ∧
    (∀ c ∈ mergeConsecutiveBlocks l, c.isAfk = false →
      (10 : ℚ) ≤ c.main.percentage) := by
  refine ⟨rfl, ?_, ?_, ?_, ?_⟩
  · intro h; simp [sigStep, h]
  · intro h1 h2; simp [sigStep, h1, h2]
  · intro h1 h2
    have hn : ¬((10 : ℚ) ≤ b.main.percentage) := not_le.mpr h2
    refine ⟨by simp [sigStep, h1, hn], ?_⟩
    simp [sigStep, h1, hn, idleMain]
  · intro c hc hfalse
    exact merged_nonafk_ge l c hc hfalse

/-- Claim C5 (witness): a block at 5 percent is reclassified. -/
theorem c5_significance_filter_witness :
    sigStep lowBlock = { lowBlock with
      isAfk := true
      main := idleMain lowBlock.duration
      supporting := [] } :=
  ((c5_significance_filter lowBlock []).2.2.2.1 (by decide) (by decide)).1

/-! Field equations of the pass-1 accumulator operations. -/

theorem startAcc_start (b : Block) : (startAcc b).start = b.start := rfl

theorem startAcc_stop (b : Block) : (startAcc b).stop = b.stop := rfl

theorem startAcc_startUtc (b : Block) : (startAcc b).startUtc = b.startUtc := rfl

theorem startAcc_stopUtc (b : Block) : (startAcc b).stopUtc = b.stopUtc := rfl

theorem startAcc_duration (b : Block) : (startAcc b).duration = b.duration := rfl

theorem startAcc_isAfk (b : Block) : (startAcc b).isAfk = b.isAfk := rfl

theorem startAcc_main (b : Block) : (startAcc b).main = b.main := rfl

theorem extendBlock_stop_eq (cur next : Block) :
    (extendBlock cur next).stop =
      (if 21 ≤ pyHour (next.stopUtc.getD 0) then
        pyReplaceHour21 (next.stopUtc.getD 0)
      else next.stop) := rfl

theorem extendBlock_stopUtc_eq (cur next : Block) :
    (extendBlock cur next).stopUtc =
      (if 21 ≤ pyHour (next.stopUtc.getD 0) then
        some (pyReplaceHour21 (next.stopUtc.getD 0))
      else next.stopUtc) := rfl

theorem extendBlock_duration_eq (cur next : Block) :
    (extendBlock cur next).duration =
      (if 21 ≤ pyHour (next.stopUtc.getD 0) then
        some (pyReplaceHour21 (next.stopUtc.getD 0))
      else next.stopUtc).getD 0 - cur.startUtc.getD 0 := rfl

theorem extendBlock_start (cur next : Block) :
    (extendBlock cur next).start = cur.start := rfl

theorem extendBlock_startUtc (cur next : Block) :
    (extendBlock cur next).startUtc = cur.startUtc := rfl

theorem extendBlock_isAfk (cur next : Block) :
    (extendBlock cur next).isAfk = cur.isAfk := rfl

theorem extendBlock_main_duration (cur next : Block) :
    (extendBlock cur next).main.duration =
      cur.main.duration + next.main.duration := rfl

theorem extendBlock_main_percentage (cur next : Block) :
    (extendBlock cur next).main.percentage = cur.main.percentage := rfl

theorem extendBlock_main_rawApp (cur next : Block) :
    (extendBlock cur next).main.rawApp = cur.main.rawApp := rfl

theorem extendBlock_main_primaryWindow (cur next : Block) :
    (extendBlock cur next).main.primaryWindow = cur.main.primaryWindow := rfl

theorem extendBlock_main_windows (cur next : Block) :
    (extendBlock cur next).main.windows = cur.main.windows := rfl

/-! Clamp arithmetic: within the day, an hour at or past 21 means the
instant is at or past 75600, and `replace(hour=21)` yields exactly 75600. -/

theorem pyHour_ge21 (t : ℤ) (h0 : 0 ≤ t) (h1 : t < 86400) (h2 : 75600 ≤ t) :
    21 ≤ pyHour t := by
  unfold pyHour
  rw [Int.fdiv_eq_ediv _ (by norm_num)]
  omega

theorem lt_75600_of_hour_lt (t : ℤ) (h0 : 0 ≤ t) (h1 : t < 86400)
    (hh : ¬21 ≤ pyHour t) : t < 75600 := by
  unfold pyHour at hh
  rw [Int.fdiv_eq_ediv _ (by norm_num)] at hh
  omega

theorem pyReplaceHour21_within_day (t : ℤ) (h0 : 0 ≤ t) (h1 : t < 86400) :
    pyReplaceHour21 t = 75600 := by
  unfold pyReplaceHour21
  rw [Int.fdiv_eq_ediv _ (by norm_num)]
  omega

/-- Within the day, every extension leaves the accumulator's end at or
before 21:00, and keeps `end_time_utc` equal to `end_time`. -/
theorem extendBlock_stop_le (cur next : Block) (t : ℤ)
    (ht : next.stopUtc = some t) (hts : next.stop = t) (h0 : 0 ≤ t)
    (h1 : t < 86400) :
    (extendBlock cur next).stop ≤ 75600 ∧
      (extendBlock cur next).stopUtc = some (extendBlock cur next).stop ∧
      0 ≤ (extendBlock cur next).stop ∧ (extendBlock cur next).stop < 86400 := by
  rw [extendBlock_stop_eq, extendBlock_stopUtc_eq, ht]
  simp only [Option.getD_some]
  by_cases hh : 21 ≤ pyHour t
  · rw [if_pos hh, if_pos hh, pyReplaceHour21_within_day t h0 h1]
    norm_num
  · rw [if_neg hh, if_neg hh, hts]
    have := lt_75600_of_hour_lt t h0 h1 hh
    exact ⟨by omega, rfl, by omega, by omega⟩

/-- Pass 1 never produces an end past 21:00 except by passing an input
block's own end through unchanged: assuming every non-AFK input block
carries `end_time_utc` equal to its `end_time` within the day, every
output block either ends at or before 75600 (in particular every block
whose end was set by a merge) or inherits its unmodified end from some
input block. -/
theorem pass1Go_stop_bound :
    ∀ (l l0 : List Block) (cur : Block),
      (∀ b ∈ l, b ∈ l0) →
      (∀ b ∈ l0, b.isAfk = false →
        b.stopUtc = some b.stop ∧ 0 ≤ b.stop ∧ b.stop < 86400) →
      (cur.stop ≤ 75600 ∨ ∃ bi ∈ l0, cur.stop = bi.stop) →
      (cur.isAfk = false →
        cur.stopUtc = some cur.stop ∧ 0 ≤ cur.stop ∧ cur.stop < 86400) →
      ∀ bo ∈ pass1Go cur l, bo.stop ≤ 75600 ∨ ∃ bi ∈ l0, bo.stop = bi.stop := by
  intro l
  induction l with
  | nil =>
    intro l0 cur _ _ hcur _ bo hbo
    simp only [pass1Go, List.mem_singleton] at hbo
    rw [hbo]
    exact hcur
  | cons next rest ih =>
    intro l0 cur hsub hwf hcur hcurwf bo hbo
    have hnext0 : next ∈ l0 := hsub next (List.mem_cons_self _ _)
    have hrest : ∀ b ∈ rest, b ∈ l0 := fun b hb =>
      hsub b (List.mem_cons_of_mem _ hb)
    rw [pass1Go] at hbo
    by_cases hafk : (cur.isAfk || next.isAfk) = true
    · rw [if_pos hafk] at hbo
      rcases List.mem_cons.mp hbo with h | h
      · rw [h]; exact hcur
      · refine ih l0 (startAcc next) hrest hwf ?_ ?_ bo h
        · rw [startAcc_stop]
          exact Or.inr ⟨next, hnext0, rfl⟩
        · rw [startAcc_isAfk, startAcc_stop, startAcc_stopUtc]
          exact hwf next hnext0
    · rw [if_neg hafk] at hbo
      simp only [Bool.or_eq_true, not_or, Bool.not_eq_true] at hafk
      obtain ⟨hcurafk, hnextafk⟩ := hafk
      by_cases hdec : mergeDecision cur next = true
      · rw [if_pos hdec] at hbo
        obtain ⟨hwn, h0, h1⟩ := hwf next hnext0 hnextafk
        obtain ⟨hle, hsu, hs0, hs1⟩ :=
          extendBlock_stop_le cur next next.stop hwn rfl h0 h1
        refine ih l0 (extendBlock cur next) hrest hwf (Or.inl hle) ?_ bo hbo
        intro _
        exact ⟨hsu, hs0, hs1⟩
      · rw [if_neg hdec] at hbo
        rcases List.mem_cons.mp hbo with h | h
        · rw [h]; exact hcur
        · refine ih l0 (startAcc next) hrest hwf ?_ ?_ bo h
          · rw [startAcc_stop]
            exact Or.inr ⟨next, hnext0, rfl⟩
          · rw [startAcc_isAfk, startAcc_stop, startAcc_stopUtc]
            exact hwf next hnext0

/-- Claim C9: the merger's final output never has two adjacent AFK blocks;
pass 2 turns every maximal run of consecutive AFK blocks into a single AFK
block ending at the run's last end with the run's summed duration, flushes
it before a non-AFK block, flushes a trailing run at the end, and passes
non-AFK blocks through in place. -/
theorem c9_afk_coalescing :
    (∀ l : List Block,
      List.Chain' notBothAfk (mergeConsecutiveBlocks l)) ∧
    (∀ (r0 : Block) (rs : List Block) (b : Block) (rest : List Block),
      r0.isAfk = true → (∀ x ∈ rs, x.isAfk = true) → b.isAfk = false →
      afkCoalesce (r0 :: (rs ++ b :: rest)) =
        (rs.foldl extendAfk r0) :: b :: afkCoalesce rest ∧
      afkCoalesce (r0 :: rs) = [rs.foldl extendAfk r0] ∧
      (∀ z, (r0 :: rs).getLast? = some z →
        (rs.foldl extendAfk r0).stop = z.stop) ∧
      (rs.foldl extendAfk r0).duration = ((r0 :: rs).map Block.duration).sum ∧
      (rs.foldl extendAfk r0).isAfk = true) ∧
    (∀ (b : Block) (rest : List Block), b.isAfk = false →
      afkCoalesce (b :: rest) = b :: afkCoalesce rest) := by
  refine ⟨?_, ?_, ?_⟩
  · intro l
    unfold mergeConsecutiveBlocks
    match l with
    | [] => exact List.chain'_nil
    | c :: rest => exact chain_notBothAfk_coalesceGo _ none
  · intro r0 rs b rest h0 hall hb
    refine ⟨?_, ?_, ?_, ?_, ?_⟩
    · show coalesceGo none (r0 :: (rs ++ b :: rest)) = _
      simp only [coalesceGo, h0, if_pos]
      exact coalesceGo_append_run rs r0 b rest hall hb
    · show coalesceGo none (r0 :: rs) = _
      simp only [coalesceGo, h0, if_pos]
      exact coalesceGo_all_run rs r0 hall
    · exact fun z hz => foldl_extendAfk_stop rs r0 z hz
    · rw [foldl_extendAfk_duration]
      simp
    · rw [foldl_extendAfk_isAfk]
      exact h0
  · intro b rest hb
    show coalesceGo none (b :: rest) = _
    simp only [coalesceGo, hb, Bool.false_eq_true, if_false]
    rfl

/-- Claim C9 (witness): two adjacent gap-AFK blocks followed by an active
block coalesce into a single AFK block spanning both. -/
theorem c9_afk_coalescing_witness :
    afkCoalesce (gapAfkBlock 22500 23400 :: ([gapAfkBlock 23400 24300] ++
        termBlock1 :: [])) =
      ([gapAfkBlock 23400 24300].foldl extendAfk (gapAfkBlock 22500 23400)) ::
        termBlock1 :: afkCoalesce [] :=
  (c9_afk_coalescing.2.1 (gapAfkBlock 22500 23400) [gapAfkBlock 23400 24300]
    termBlock1 [] (by decide) (by decide) (by decide)).1

/-- Claim C4 (counterexample): after the accumulator built from the 20:00
Terminal block is extended by the 20:15 block (whose 21:15 end clamps the
accumulator to exactly 21:00), a further matching block is still absorbed:
its main duration (300) is added and no separate block is emitted, so the
claim that a clamped block is not extended further fails. -/
theorem c4_counterexample :
    (pass1 [termBlock1, termBlock2, termBlock3]).map
      (fun b => (b.stop, b.main.duration)) = [(75600, 1800)] := by decide

/-- Claim C4 (amended): whenever a pass-1 extension meets a next block
whose within-day end is at or past 21:00, the accumulator's end is clamped
to exactly 21:00 (75600); every extension leaves the end at or before
21:00; and hence, on input lists whose non-AFK blocks carry consistent
within-day `end_time_utc`, every pass-1 output block either ends at or
before 21:00 or carries some input block's unmodified end — but a clamped
accumulator is NOT protected from absorbing later matching blocks. -/
theorem c4_amended_clamp :
    (∀ (cur next : Block) (t : ℤ), next.stopUtc = some t → 0 ≤ t →
      t < 86400 → 75600 ≤ t →
      (extendBlock cur next).stop = 75600 ∧
        (extendBlock cur next).stopUtc = some 75600) ∧
    (∀ (cur next : Block) (t : ℤ), next.stopUtc = some t → next.stop = t →
      0 ≤ t → t < 86400 → (extendBlock cur next).stop ≤ 75600) ∧
    (∀ l : List Block,
      (∀ b ∈ l, b.isAfk = false →
        b.stopUtc = some b.stop ∧ 0 ≤ b.stop ∧ b.stop < 86400) →
      ∀ bo ∈ pass1 l, bo.stop ≤ 75600 ∨ ∃ bi ∈ l, bo.stop = bi.stop) := by
  refine ⟨?_, ?_, ?_⟩
  · intro cur next t ht h0 h1 h2
    rw [extendBlock_stop_eq, extendBlock_stopUtc_eq, ht]
    simp only [Option.getD_some]
    have hh := pyHour_ge21 t h0 h1 h2
    rw [if_pos hh, if_pos hh, pyReplaceHour21_within_day t h0 h1]
    exact ⟨rfl, rfl⟩
  · intro cur next t ht hts h0 h1
    exact (extendBlock_stop_le cur next t ht hts h0 h1).1
  · intro l hwf bo hbo
    match l, hbo with
    | b :: rest, hbo =>
      refine pass1Go_stop_bound rest (b :: rest) (startAcc b)
        (fun x hx => List.mem_cons_of_mem _ hx) hwf ?_ ?_ bo hbo
      · rw [startAcc_stop]
        exact Or.inr ⟨b, List.mem_cons_self _ _, rfl⟩
      · rw [startAcc_isAfk, startAcc_stop, startAcc_stopUtc]
        exact hwf b (List.mem_cons_self _ _)

/-- Claim C4 (witness): extending by the block that ends 21:15 clamps the
end to exactly 21:00. -/
theorem c4_amended_clamp_witness :
    (extendBlock termBlock1 termBlock2).stop = 75600 ∧
      (extendBlock termBlock1 termBlock2).stopUtc = some 75600 :=
  c4_amended_clamp.1 termBlock1 termBlock2 76500 (by decide) (by decide)
    (by decide) (by decide)

/-! Sum bound for the analyzer: pairwise-disjoint events overlap one slot
by at most the slot's length in total. -/

/-- `_get_events_in_block` is the filter of overlapping events followed by
the overlap enrichment. -/
theorem getEventsInBlock_eq_filter_map (s e : ℤ) (l : List Event) :
    getEventsInBlock s e l = (l.filter (overlapsBlock s e)).map (clipEvent s e) := by
  induction l with
  | nil => rfl
  | cons ev rest ih =>
    unfold getEventsInBlock at ih ⊢
    rw [List.filterMap_cons, List.filter_cons]
    by_cases h1 : ev.timestamp < e ∧ s < ev.timestamp + ev.duration
    · by_cases h2 :
        (0 : ℤ) < min (ev.timestamp + ev.duration) e - max ev.timestamp s
      · have ho : overlapsBlock s e ev = true := by
          unfold overlapsBlock
          exact decide_eq_true ⟨h1.1, h1.2, h2⟩
        simp only [h1, and_self, if_true, h2, ho, if_pos, List.map_cons]
        rw [ih]
        rfl
      · have ho : overlapsBlock s e ev = false := by
          unfold overlapsBlock
          simp only [decide_eq_false_iff_not, not_and]
          intro _ _
          exact h2
        simp only [h1, and_self, if_true, h2, if_false, ho,
          Bool.false_eq_true, ih]
    · have ho : overlapsBlock s e ev = false := by
        unfold overlapsBlock
        simp only [decide_eq_false_iff_not, not_and]
        intro ha hb
        exact absurd ⟨ha, hb⟩ h1
      simp only [h1, if_false, ho, Bool.false_eq_true, ih]

/-- A sum split along a boolean filter. -/
theorem sum_map_filter_add {α : Type} (l : List α) (f : α → ℤ) (p : α → Bool) :
    ((l.filter p).map f).sum + ((l.filter fun x => !p x).map f).sum =
      (l.map f).sum := by
  induction l with
  | nil => simp
  | cons x rest ih =>
    by_cases hx : p x = true
    · simp only [List.filter_cons, hx, if_pos, Bool.not_true, List.map_cons,
        List.sum_cons, Bool.false_eq_true, if_false]
      omega
    · have hx' : p x = false := by
        cases h : p x
        · rfl
        · exact absurd h hx
      simp only [List.filter_cons, hx', Bool.false_eq_true, if_false,
        Bool.not_false, if_pos, List.map_cons, List.sum_cons]
      omega

/-- Pairwise-disjoint subintervals of `[a, b]` have total length at most
`b - a`. -/
theorem sum_of_disjoint_subintervals :
    ∀ (n : ℕ) (l : List (ℤ × ℤ)) (a b : ℤ), l.length ≤ n → a ≤ b →
      (∀ p ∈ l, a ≤ p.1 ∧ p.1 ≤ p.2 ∧ p.2 ≤ b) →
      List.Pairwise (fun p q => p.2 ≤ q.1 ∨ q.2 ≤ p.1) l →
      (l.map fun p => p.2 - p.1).sum ≤ b - a := by
  intro n
  induction n with
  | zero =>
    intro l a b hlen hab _ _
    have hl : l = [] := List.length_eq_zero.mp (Nat.le_zero.mp hlen)
    subst hl
    simpa using hab
  | succ n ih =>
    intro l a b hlen hab hbounds hpw
    match l with
    | [] => simpa using hab
    | p :: rest =>
      obtain ⟨hpa, hp12, hpb⟩ := hbounds p (List.mem_cons_self _ _)
      have hdisj : ∀ q ∈ rest, p.2 ≤ q.1 ∨ q.2 ≤ p.1 :=
        (List.pairwise_cons.mp hpw).1
      have hpwrest : List.Pairwise (fun p q => p.2 ≤ q.1 ∨ q.2 ≤ p.1) rest :=
        (List.pairwise_cons.mp hpw).2
      have hlen' : rest.length ≤ n := by
        simpa using Nat.succ_le_succ_iff.mp (by simpa using hlen)
      have hsum := sum_map_filter_add rest (fun q => q.2 - q.1)
        (fun q => decide (q.2 ≤ p.1))
      have h1 : (((rest.filter fun q => decide (q.2 ≤ p.1)).map
          fun q => q.2 - q.1).sum) ≤ p.1 - a := by
        refine ih _ a p.1 (le_trans (List.length_filter_le _ _) hlen') hpa ?_ ?_
        · intro q hq
          have hmq := List.mem_of_mem_filter hq
          have hcond : q.2 ≤ p.1 := by
            have := List.of_mem_filter hq
            simpa using this
          obtain ⟨hqa, hq12, _⟩ := hbounds q (List.mem_cons_of_mem _ hmq)
          exact ⟨hqa, hq12, hcond⟩
        · exact List.Pairwise.sublist (List.filter_sublist _) hpwrest
      have h2 : (((rest.filter fun q => !decide (q.2 ≤ p.1)).map
          fun q => q.2 - q.1).sum) ≤ b - p.2 := by
        refine ih _ p.2 b (le_trans (List.length_filter_le _ _) hlen') hpb ?_ ?_
        · intro q hq
          have hmq := List.mem_of_mem_filter hq
          have hcond := List.of_mem_filter hq
          simp only [Bool.not_eq_true', decide_eq_false_iff_not, not_le] at hcond
          obtain ⟨hqa, hq12, hqb⟩ := hbounds q (List.mem_cons_of_mem _ hmq)
          rcases hdisj q hmq with hd | hd
          · exact ⟨hd, hq12, hqb⟩
          · exact absurd hcond (not_lt.mpr hd)
        · exact List.Pairwise.sublist (List.filter_sublist _) hpwrest
      simp only [List.map_cons, List.sum_cons]
      omega

/-- Every overlap recorded by `_get_events_in_block` is positive. -/
theorem blockDuration_pos (s e : ℤ) (events : List Event) :
    ∀ be ∈ getEventsInBlock s e events, 0 < be.blockDuration := by
  intro be hbe
  rw [getEventsInBlock_eq_filter_map] at hbe
  rcases List.mem_map.mp hbe with ⟨ev, hev, rfl⟩
  have hcond : _ := List.of_mem_filter hev
  unfold overlapsBlock at hcond
  exact (of_decide_eq_true hcond).2.2

/-- With pairwise-disjoint events, the overlaps recorded for one slot sum
to at most the slot length. -/
theorem sum_blockDuration_le (s e : ℤ) (events : List Event) (hse : s ≤ e)
    (hdisj : List.Pairwise evDisjoint events) :
    ((getEventsInBlock s e events).map BlockEvent.blockDuration).sum ≤ e - s := by
  rw [getEventsInBlock_eq_filter_map, List.map_map]
  have key := sum_of_disjoint_subintervals
    ((events.filter (overlapsBlock s e)).map
      (fun ev => (max ev.timestamp s, min (ev.timestamp + ev.duration) e))).length
    ((events.filter (overlapsBlock s e)).map
      (fun ev => (max ev.timestamp s, min (ev.timestamp + ev.duration) e)))
    s e le_rfl hse ?_ ?_
  · rw [List.map_map] at key
    exact key
  · intro p hp
    rcases List.mem_map.mp hp with ⟨ev, hev, rfl⟩
    have hcond : ev.timestamp < e ∧ s < ev.timestamp + ev.duration ∧
        0 < min (ev.timestamp + ev.duration) e - max ev.timestamp s := by
      simpa [overlapsBlock] using List.of_mem_filter hev
    refine ⟨le_max_right _ _, le_of_lt ?_, min_le_right _ _⟩
    have := hcond.2.2
    omega
  · rw [List.pairwise_map]
    have hpw : List.Pairwise evDisjoint (events.filter (overlapsBlock s e)) :=
      List.Pairwise.sublist (List.filter_sublist _) hdisj
    refine hpw.imp ?_
    intro x y hxy
    rcases hxy with h | h
    · exact Or.inl (le_trans (min_le_left _ _) (le_trans h (le_max_left _ _)))
    · exact Or.inr (le_trans (min_le_left _ _) (le_trans h (le_max_left _ _)))

/-- One `addEvent` step adds the event's overlap to the total of the
accumulated group durations. -/
theorem addEvent_sum (acc : List (String × ActEntry)) (be : BlockEvent) :
    ((addEvent acc be).map (fun p => p.2.duration)).sum =
      (acc.map (fun p => p.2.duration)).sum + be.blockDuration := by
  induction acc with
  | nil => simp [addEvent, addToEntry, emptyEntry]
  | cons p rest ih =>
    match p with
    | (k, en) =>
      by_cases hk : k = actKey be.ev
      · simp only [addEvent, hk, if_pos, List.map_cons, List.sum_cons, addToEntry]
        omega
      · simp only [addEvent, hk, if_false, List.map_cons, List.sum_cons, ih]
        omega

/-- Folding a slot's events into `activity_times` preserves the total
duration. -/
theorem foldl_addEvent_sum :
    ∀ (evs : List BlockEvent) (acc : List (String × ActEntry)),
      (((evs.foldl addEvent acc).map (fun p => p.2.duration)).sum) =
        (acc.map (fun p => p.2.duration)).sum +
          (evs.map BlockEvent.blockDuration).sum := by
  intro evs
  induction evs with
  | nil => intro acc; simp
  | cons be rest ih =>
    intro acc
    rw [List.foldl_cons, ih, addEvent_sum]
    simp only [List.map_cons, List.sum_cons]
    omega

/-- `addEvent` keeps all group durations nonnegative. -/
theorem addEvent_nonneg (acc : List (String × ActEntry)) (be : BlockEvent)
    (hacc : ∀ p ∈ acc, 0 ≤ p.2.duration) (hbe : 0 ≤ be.blockDuration) :
    ∀ p ∈ addEvent acc be, 0 ≤ p.2.duration := by
  induction acc with
  | nil =>
    intro p hp
    simp only [addEvent, List.mem_singleton] at hp
    rw [hp]
    simp [addToEntry, emptyEntry]
    omega
  | cons q rest ih =>
    match q with
    | (k, en) =>
      intro p hp
      by_cases hk : k = actKey be.ev
      · simp only [addEvent, hk, if_pos] at hp
        rcases List.mem_cons.mp hp with h | h
        · rw [h]
          have := hacc (k, en) (List.mem_cons_self _ _)
          simp only [addToEntry]
          simp at this ⊢
          omega
        · exact hacc p (List.mem_cons_of_mem _ h)
      · simp only [addEvent, hk, if_false] at hp
        rcases List.mem_cons.mp hp with h | h
        · rw [h]
          exact hacc (k, en) (List.mem_cons_self _ _)
        · exact ih (fun r hr => hacc r (List.mem_cons_of_mem _ hr)) p h

/-- All group durations accumulated from positive overlaps are
nonnegative. -/
theorem foldl_addEvent_nonneg :
    ∀ (evs : List BlockEvent) (acc : List (String × ActEntry)),
      (∀ p ∈ acc, 0 ≤ p.2.duration) →
      (∀ be ∈ evs, 0 ≤ be.blockDuration) →
      ∀ p ∈ evs.foldl addEvent acc, 0 ≤ p.2.duration := by
  intro evs
  induction evs with
  | nil => intro acc hacc _ p hp; exact hacc p hp
  | cons be rest ih =>
    intro acc hacc hevs p hp
    rw [List.foldl_cons] at hp
    refine ih _ ?_ (fun x hx => hevs x (List.mem_cons_of_mem _ hx)) p hp
    exact addEvent_nonneg acc be hacc (hevs be (List.mem_cons_self _ _))

/-- One `addToAppGroups` step adds the event to the grouped content. -/
theorem addToAppGroups_flatten_sum (groups : List (String × List BlockEvent))
    (be : BlockEvent) :
    ((((addToAppGroups groups be).map Prod.snd).flatten).map
        BlockEvent.blockDuration).sum =
      (((groups.map Prod.snd).flatten).map BlockEvent.blockDuration).sum +
        be.blockDuration := by
  induction groups with
  | nil => simp [addToAppGroups]
  | cons g rest ih =>
    match g with
    | (k, evs) =>
      by_cases hk : k = be.ev.app
      · simp only [addToAppGroups, hk, if_pos, List.map_cons, List.flatten_cons,
          List.map_append, List.sum_append, List.map_cons, List.sum_cons]
        simp
        omega
      · simp only [addToAppGroups, hk, if_false, List.map_cons,
          List.flatten_cons, List.map_append, List.sum_append, ih]
        omega

/-- Grouping by app only permutes a slot's events: the content total is the
plain total. -/
theorem foldl_appGroups_sum :
    ∀ (evs : List BlockEvent) (acc : List (String × List BlockEvent)),
      ((((evs.foldl addToAppGroups acc).map Prod.snd).flatten).map
          BlockEvent.blockDuration).sum =
        (((acc.map Prod.snd).flatten).map BlockEvent.blockDuration).sum +
          (evs.map BlockEvent.blockDuration).sum := by
  intro evs
  induction evs with
  | nil => intro acc; simp
  | cons be rest ih =>
    intro acc
    rw [List.foldl_cons, ih, addToAppGroups_flatten_sum]
    simp only [List.map_cons, List.sum_cons]
    omega

/-- Membership after one `addToAppGroups` step. -/
theorem mem_addToAppGroups (groups : List (String × List BlockEvent))
    (be x : BlockEvent)
    (hx : x ∈ ((addToAppGroups groups be).map Prod.snd).flatten) :
    x ∈ (groups.map Prod.snd).flatten ∨ x = be := by
  induction groups with
  | nil =>
    simp [addToAppGroups] at hx
    exact Or.inr hx
  | cons g rest ih =>
    match g with
    | (k, evs) =>
      by_cases hk : k = be.ev.app
      · simp only [addToAppGroups, hk, if_pos] at hx
        simp only [List.map_cons, List.flatten_cons, List.mem_append,
          List.mem_singleton] at hx ⊢
        tauto
      · simp only [addToAppGroups, hk, if_false] at hx
        simp only [List.map_cons, List.flatten_cons, List.mem_append] at hx ⊢
        rcases hx with h | h
        · tauto
        · rcases ih h with h2 | h2 <;> tauto

/-- Membership in the grouped content comes from the folded events. -/
theorem mem_foldl_appGroups :
    ∀ (evs : List BlockEvent) (acc : List (String × List BlockEvent))
      (x : BlockEvent),
      x ∈ ((evs.foldl addToAppGroups acc).map Prod.snd).flatten →
      x ∈ (acc.map Prod.snd).flatten ∨ x ∈ evs := by
  intro evs
  induction evs with
  | nil => intro acc x hx; exact Or.inl hx
  | cons be rest ih =>
    intro acc x hx
    rw [List.foldl_cons] at hx
    rcases ih _ x hx with h | h
    · rcases mem_addToAppGroups acc be x h with h2 | h2
      · exact Or.inl h2
      · exact Or.inr (h2 ▸ List.mem_cons_self _ _)
    · exact Or.inr (List.mem_cons_of_mem _ h)

/-- Membership through `insertDesc`. -/
theorem mem_insertDesc {α β : Type} [LinearOrder β] (f : α → β) (y x : α) :
    ∀ l : List α, x ∈ insertDesc f y l ↔ x = y ∨ x ∈ l := by
  intro l
  induction l with
  | nil => simp [insertDesc]
  | cons z zs ih =>
    unfold insertDesc
    by_cases h : f z ≤ f y
    · simp [h]
    · simp only [h, if_false, List.mem_cons, ih]
      tauto

/-- The stable sort permutes membership. -/
theorem mem_sortDesc {α β : Type} [LinearOrder β] (f : α → β) (x : α) :
    ∀ l : List α, x ∈ sortDesc f l ↔ x ∈ l := by
  intro l
  induction l with
  | nil => simp [sortDesc]
  | cons z zs ih =>
    show x ∈ insertDesc f z (sortDesc f zs) ↔ _
    rw [mem_insertDesc, ih, List.mem_cons]

/-- Destructuring a successful `_analyze_block`: the block's fields and the
surviving group its main activity is built from. -/
theorem analyzeBlock_eq_some (s e : ℤ) (evs : List BlockEvent) (b : Block)
    (hb : analyzeBlock s e evs = some b) :
    b.start = s ∧ b.stop = e ∧ b.startUtc = some s ∧ b.stopUtc = some e ∧
    b.duration = e - s ∧ b.isAfk = false ∧
    ∃ kd ∈ (((evs.foldl addToAppGroups []).map Prod.snd).flatten).foldl
        addEvent [],
      (60 : ℤ) ≤ kd.2.duration ∧ b.main.duration = kd.2.duration ∧
        b.main.percentage = pctValue kd.2.duration (e - s) := by
  simp only [analyzeBlock] at hb
  split at hb
  · cases hb
  · split at hb
    · cases hb
    · next mainKD restKD heq =>
      rw [Option.some_inj] at hb
      subst hb
      refine ⟨rfl, rfl, rfl, rfl, rfl, rfl, mainKD, ?_, ?_, rfl, rfl⟩
      · have hmem : mainKD ∈ mainKD :: restKD := List.mem_cons_self _ _
        rw [← heq, mem_sortDesc] at hmem
        exact List.mem_of_mem_filter hmem
      · have hmem : mainKD ∈ mainKD :: restKD := List.mem_cons_self _ _
        rw [← heq, mem_sortDesc] at hmem
        have := List.of_mem_filter hmem
        simpa using this

/-- The stored percentage is the claimed ratio, rounded to one decimal
place (half to even): for a positive span,
`pctValue m span = round(m / span * 100, 1)` over exact arithmetic. -/
theorem pctValue_eq_pyRound1 (m span : ℤ) (h : 0 < span) :
    pctValue m span = pyRound1 ((m : ℚ) * 100 / (span : ℚ)) := by
  unfold pctValue
  rw [if_pos h]
  congr 1
  rw [Rat.mkRat_eq_div]
  have hs : ((span.toNat : ℕ) : ℚ) = (span : ℚ) := by
    have hz : ((span.toNat : ℤ)) = span := Int.toNat_of_nonneg (le_of_lt h)
    exact_mod_cast congrArg (fun z : ℤ => (z : ℚ)) hz
  rw [hs]
  push_cast
  ring

/-- Claim C2 (counterexample): two merged 15-minute blocks of the same
activity (mains 900 s and 450 s) produce a session block with duration
1800, main duration 1350, but percentage 100 — the first constituent's
percentage, not `1350 / 1800 * 100 = 75`. -/
theorem c2_counterexample :
    ((analyze [⟨21600, 900, "A", "x", false⟩,
               ⟨22500, 450, "A", "x", false⟩]).timelineBlocks.map fun b =>
      (b.duration, b.main.duration, b.main.percentage)) = [(1800, 1350, 100)] ∧
    (100 : ℚ) ≠ (1350 : ℚ) / 1800 * 100 := by
  constructor
  · decide
  · norm_num

/-- Claim C2 (amended): for a block built by the analyzer from the slot
overlaps of pairwise-non-overlapping events, `main_activity.duration` is
at most `block.duration`, and `main_activity.percentage` equals
`round(main_activity.duration / block.duration * 100, 1)` (0 for an empty
span); the pass-1 merge step adds the absorbed block's main duration and
leaves the stored percentage unchanged, so a session block keeps its first
constituent's percentage instead of the recomputed ratio. -/
theorem c2_amended_main_invariant :
    (∀ (s e : ℤ) (events : List Event) (b : Block), s ≤ e →
      List.Pairwise evDisjoint events →
      analyzeBlock s e (getEventsInBlock s e events) = some b →
      b.main.duration ≤ b.duration ∧
      b.duration = e - s ∧
      b.main.percentage = pctValue b.main.duration b.duration ∧
      (0 < b.duration →
        b.main.percentage =
          pyRound1 ((b.main.duration : ℚ) * 100 / (b.duration : ℚ)))) ∧
    (∀ cur next : Block,
      (extendBlock cur next).main.duration =
        cur.main.duration + next.main.duration ∧
      (extendBlock cur next).main.percentage = cur.main.percentage) := by
  constructor
  · intro s e events b hse hdisj hb
    obtain ⟨_, _, _, _, hdur, _, kd, hkd, h60, hmain, hpct⟩ :=
      analyzeBlock_eq_some s e (getEventsInBlock s e events) b hb
    have hbe_pos : ∀ be ∈ getEventsInBlock s e events, 0 ≤ be.blockDuration :=
      fun be hbe => le_of_lt (blockDuration_pos s e events be hbe)
    have hfl_pos : ∀ be ∈ ((((getEventsInBlock s e events).foldl
        addToAppGroups []).map Prod.snd).flatten), 0 ≤ be.blockDuration := by
      intro be hbe
      rcases mem_foldl_appGroups _ [] be hbe with h | h
      · simp at h
      · exact hbe_pos be h
    have hnn : ∀ p ∈ ((((getEventsInBlock s e events).foldl
        addToAppGroups []).map Prod.snd).flatten).foldl addEvent [],
        0 ≤ p.2.duration :=
      foldl_addEvent_nonneg _ [] (by simp) hfl_pos
    have hsum1 := foldl_addEvent_sum
      ((((getEventsInBlock s e events).foldl addToAppGroups []).map
        Prod.snd).flatten) []
    have hsum2 := foldl_appGroups_sum (getEventsInBlock s e events) []
    have hsum3 := sum_blockDuration_le s e events hse hdisj
    have hle : kd.2.duration ≤ e - s := by
      have hmem := List.mem_map_of_mem (fun p => p.2.duration) hkd
      have hone := List.single_le_sum
        (l := (((((getEventsInBlock s e events).foldl addToAppGroups []).map
          Prod.snd).flatten).foldl addEvent []).map (fun p => p.2.duration))
        (by intro x hx
            rcases List.mem_map.mp hx with ⟨p, hp, rfl⟩
            exact hnn p hp)
        _ hmem
      simp only [List.map_nil, List.sum_nil, List.flatten_nil, zero_add]
        at hsum1 hsum2
      rw [hsum1, hsum2] at hone
      exact le_trans hone hsum3
    refine ⟨by rw [hmain, hdur]; exact hle, hdur, by rw [hpct, hmain, hdur], ?_⟩
    intro hpos
    rw [hpct, hmain, hdur]
    rw [hdur] at hpos
    exact pctValue_eq_pyRound1 kd.2.duration (e - s) hpos
  · intro cur next
    exact ⟨extendBlock_main_duration cur next,
      extendBlock_main_percentage cur next⟩

/-- Claim C2 (witness): one 600-second event in a 900-second slot gives a
main of 600 at percentage 66.7 on a block of duration 900. -/
theorem c2_amended_main_invariant_witness :
    c2WitnessBlock.main.duration ≤ c2WitnessBlock.duration ∧
      c2WitnessBlock.duration = 900 - 0 ∧
      c2WitnessBlock.main.percentage =
        pctValue c2WitnessBlock.main.duration c2WitnessBlock.duration ∧
      (0 < c2WitnessBlock.duration →
        c2WitnessBlock.main.percentage =
          pyRound1 ((c2WitnessBlock.main.duration : ℚ) * 100 /
            (c2WitnessBlock.duration : ℚ))) :=
  c2_amended_main_invariant.1 0 900 [⟨0, 600, "A", "x", false⟩]
    c2WitnessBlock (by decide) (by decide) (by decide)

/-! ### Tiling invariants: the timeline blocks partition a contiguous
span (claim C1) -/

theorem ge_75600_of_hour_ge (t : ℤ) (h0 : 0 ≤ t) (h1 : t < 86400)
    (hh : 21 ≤ pyHour t) : 75600 ≤ t := by
  unfold pyHour at hh
  rw [Int.fdiv_eq_ediv _ (by norm_num)] at hh
  omega

/-- On well-formed pipeline blocks (within-day ends at or before 21:00),
the merge step's clamp is the identity and the extension has the expected
fields. -/
theorem extendBlock_pipeline (cur next : Block)
    (hcu : cur.startUtc = some cur.start) (hnu : next.stopUtc = some next.stop)
    (h0 : 0 ≤ next.stop) (h75 : next.stop ≤ 75600) :
    (extendBlock cur next).stop = next.stop ∧
      (extendBlock cur next).stopUtc = some next.stop ∧
      (extendBlock cur next).duration = next.stop - cur.start := by
  have h1 : next.stop < 86400 := by omega
  rw [extendBlock_stop_eq, extendBlock_stopUtc_eq, extendBlock_duration_eq,
    hnu, hcu]
  simp only [Option.getD_some]
  by_cases hh : 21 ≤ pyHour next.stop
  · have h75' : 75600 ≤ next.stop := ge_75600_of_hour_ge next.stop h0 h1 hh
    have heq : next.stop = 75600 := le_antisymm h75 h75'
    rw [if_pos hh, pyReplaceHour21_within_day next.stop h0 h1, heq]
    simp
  · rw [if_neg hh, if_neg hh]
    simp

/-- A chained list of span-consistent blocks sums its durations to the
overall span from the first block's start to the last block's end. -/
theorem sum_duration_of_chain :
    ∀ l : List Block, (∀ b ∈ l, b.duration = b.stop - b.start) →
      chainedBlocks l → ∀ f z, l.head? = some f → l.getLast? = some z →
      (l.map Block.duration).sum = z.stop - f.start := by
  intro l
  induction l with
  | nil => intro _ _ f z hf _; cases hf
  | cons a rest ih =>
    intro hdur hchain f z hf hz
    have hfa : f = a := by
      simp only [List.head?_cons, Option.some_inj] at hf
      exact hf.symm
    subst hfa
    cases rest with
    | nil =>
      have hza : z = f := by
        simp only [List.getLast?_singleton, Option.some_inj] at hz
        exact hz.symm
      subst hza
      simp only [List.map_cons, List.map_nil, List.sum_cons, List.sum_nil]
      rw [hdur z (List.mem_cons_self _ _)]
      ring
    | cons b rest2 =>
      rw [List.getLast?_cons_cons] at hz
      have hab : f.stop = b.start := (List.chain'_cons.mp hchain).1
      have hrec := ih (fun x hx => hdur x (List.mem_cons_of_mem _ hx))
        (List.chain'_cons.mp hchain).2 b z (by simp) hz
      simp only [List.map_cons, List.sum_cons] at hrec ⊢
      rw [hdur f (List.mem_cons_self _ _)]
      omega

/-- `blockOk` ignores the supporting list. -/
theorem blockOk_startAcc (b : Block) : blockOk (startAcc b) ↔ blockOk b :=
  Iff.rfl

/-- The head of a pass-1 run starts where its accumulator starts. -/
theorem pass1Go_head_start :
    ∀ (l : List Block) (cur h : Block),
      (pass1Go cur l).head? = some h → h.start = cur.start := by
  intro l
  induction l with
  | nil =>
    intro cur h hh
    simp only [pass1Go, List.head?_cons, Option.some_inj] at hh
    rw [← hh]
  | cons next rest ih =>
    intro cur h hh
    rw [pass1Go] at hh
    by_cases hafk : (cur.isAfk || next.isAfk) = true
    · rw [if_pos hafk, List.head?_cons, Option.some_inj] at hh
      rw [← hh]
    · rw [if_neg hafk] at hh
      by_cases hdec : mergeDecision cur next = true
      · rw [if_pos hdec] at hh
        rw [ih _ _ hh, extendBlock_start]
      · rw [if_neg hdec, List.head?_cons, Option.some_inj] at hh
        rw [← hh]

/-- The head of a pending-AFK coalescing run starts where the accumulator
starts. -/
theorem coalesceGo_some_head_start :
    ∀ (l : List Block) (a h : Block),
      (coalesceGo (some a) l).head? = some h → h.start = a.start := by
  intro l
  induction l with
  | nil =>
    intro a h hh
    simp only [coalesceGo, List.head?_cons, Option.some_inj] at hh
    rw [← hh]
  | cons c rest ih =>
    intro a h hh
    by_cases hc : c.isAfk
    · simp only [coalesceGo, hc, if_pos] at hh
      rw [ih _ _ hh]
      rfl
    · simp only [coalesceGo, hc, Bool.false_eq_true, if_false,
        List.head?_cons, Option.some_inj] at hh
      rw [← hh]

/-- The chain link between a head block and the head of the remaining
list. -/
theorem chain_head_link (x : Block) (l : List Block)
    (hchain : List.Chain' (fun a b => a.stop = b.start) (x :: l)) :
    ∀ h, l.head? = some h → x.stop = h.start := by
  intro h hh
  cases l with
  | nil => cases hh
  | cons c rest =>
    simp only [List.head?_cons, Option.some_inj] at hh
    rw [← hh]
    exact (List.chain'_cons.mp hchain).1

/-- Pass 1 preserves well-formedness and tiling: the merged blocks still
partition the same contiguous span into well-formed blocks. -/
theorem pass1Go_ok :
    ∀ (l : List Block) (cur : Block), blockOk cur → (∀ b ∈ l, blockOk b) →
      List.Chain' (fun a b => a.stop = b.start) (cur :: l) →
      (∀ bo ∈ pass1Go cur l, blockOk bo) ∧
        List.Chain' (fun a b => a.stop = b.start) (pass1Go cur l) := by
  intro l
  induction l with
  | nil =>
    intro cur hcur _ _
    constructor
    · intro bo hbo
      simp only [pass1Go, List.mem_singleton] at hbo
      rw [hbo]
      exact hcur
    · exact List.chain'_singleton _
  | cons next rest ih =>
    intro cur hcur hall hchain
    have hnext : blockOk next := hall next (List.mem_cons_self _ _)
    have hrest : ∀ b ∈ rest, blockOk b := fun b hb =>
      hall b (List.mem_cons_of_mem _ hb)
    have hlink : cur.stop = next.start := (List.chain'_cons.mp hchain).1
    have hchain2 : List.Chain' (fun a b => a.stop = b.start) (next :: rest) :=
      (List.chain'_cons.mp hchain).2
    have hchainS : List.Chain' (fun a b => a.stop = b.start)
        (startAcc next :: rest) := by
      rw [List.chain'_cons']
      refine ⟨?_, hchain2.tail⟩
      intro h hh
      rw [startAcc_stop]
      exact chain_head_link next rest hchain2 h hh
    rw [pass1Go]
    have flush :
        (∀ bo ∈ cur :: pass1Go (startAcc next) rest, blockOk bo) ∧
          List.Chain' (fun a b => a.stop = b.start)
            (cur :: pass1Go (startAcc next) rest) := by
      have hih := ih (startAcc next) ((blockOk_startAcc next).mpr hnext)
        hrest hchainS
      constructor
      · intro bo hbo
        rcases List.mem_cons.mp hbo with h | h
        · rw [h]; exact hcur
        · exact hih.1 bo h
      · rw [List.chain'_cons']
        refine ⟨?_, hih.2⟩
        intro h hh
        have hhs := pass1Go_head_start rest (startAcc next) h
          (Option.mem_def.mp hh)
        rw [hhs, startAcc_start, hlink]
    by_cases hafk : (cur.isAfk || next.isAfk) = true
    · rw [if_pos hafk]
      exact flush
    · rw [if_neg hafk]
      by_cases hdec : mergeDecision cur next = true
      · rw [if_pos hdec]
        have hafk' := hafk
        simp only [Bool.or_eq_true, not_or, Bool.not_eq_true] at hafk'
        obtain ⟨hcurafk, hnextafk⟩ := hafk'
        have hext := extendBlock_pipeline cur next
          (hcur.2.2.2.2 hcurafk).1 (hnext.2.2.2.2 hnextafk).2
          (by have := hnext.2.1; have := hnext.2.2.2.1; omega)
          hnext.2.2.1
        refine ih (extendBlock cur next) ?_ hrest ?_
        · refine ⟨?_, ?_, ?_, ?_, ?_⟩
          · rw [hext.2.2, hext.1, extendBlock_start]
          · rw [hext.1, extendBlock_start]
            have h1 := hcur.2.1
            have h2 := hnext.2.1
            omega
          · rw [hext.1]
            exact hnext.2.2.1
          · rw [extendBlock_start]
            exact hcur.2.2.2.1
          · intro _
            rw [extendBlock_start, extendBlock_startUtc, hext.1]
            exact ⟨(hcur.2.2.2.2 hcurafk).1, hext.2.1⟩
        · rw [List.chain'_cons']
          refine ⟨?_, hchain2.tail⟩
          intro h hh
          rw [hext.1]
          exact chain_head_link next rest hchain2 h hh
      · rw [if_neg hdec]
        exact flush

theorem pass1_ok (l : List Block) (hall : ∀ b ∈ l, blockOk b)
    (hchain : chainedBlocks l) :
    (∀ b ∈ pass1 l, blockOk b) ∧ chainedBlocks (pass1 l) := by
  match l with
  | [] => exact ⟨fun b hb => absurd hb (List.not_mem_nil b), List.chain'_nil⟩
  | b :: rest =>
    refine pass1Go_ok rest (startAcc b)
      ((blockOk_startAcc b).mpr (hall b (List.mem_cons_self _ _)))
      (fun x hx => hall x (List.mem_cons_of_mem _ hx)) ?_
    rw [List.chain'_cons']
    refine ⟨?_, hchain.tail⟩
    intro h hh
    rw [startAcc_stop]
    exact chain_head_link b rest hchain h hh

/-- The significance filter does not move block boundaries. -/
theorem sigStep_start (b : Block) : (sigStep b).start = b.start := by
  unfold sigStep; split_ifs <;> rfl

theorem sigStep_stop (b : Block) : (sigStep b).stop = b.stop := by
  unfold sigStep; split_ifs <;> rfl

theorem sigStep_duration (b : Block) : (sigStep b).duration = b.duration := by
  unfold sigStep; split_ifs <;> rfl

theorem significancePass_ok (l : List Block) (hall : ∀ b ∈ l, blockOk b)
    (hchain : chainedBlocks l) :
    (∀ b ∈ significancePass l, blockOk b) ∧
      chainedBlocks (significancePass l) := by
  constructor
  · intro b hb
    rcases List.mem_map.mp hb with ⟨a, ha, rfl⟩
    have hok := hall a ha
    unfold sigStep
    split_ifs with h1 h2
    · exact hok
    · exact hok
    · exact ⟨hok.1, hok.2.1, hok.2.2.1, hok.2.2.2.1, by intro h; cases h⟩
  · unfold chainedBlocks significancePass
    rw [List.chain'_map]
    refine hchain.imp ?_
    intro a b hab
    rw [sigStep_stop, sigStep_start]
    exact hab

/-- The coalescing pass preserves well-formedness and tiling. -/
theorem coalesceGo_ok :
    ∀ (l : List Block) (acc : Option Block),
      (∀ b ∈ l, blockOk b) → chainedBlocks l →
      (∀ a, acc = some a → blockOk a ∧ a.isAfk = true ∧
        ∀ h, l.head? = some h → a.stop = h.start) →
      (∀ bo ∈ coalesceGo acc l, blockOk bo) ∧
        chainedBlocks (coalesceGo acc l) := by
  intro l
  induction l with
  | nil =>
    intro acc _ _ hacc
    cases acc with
    | none => exact ⟨fun bo hbo => absurd hbo (List.not_mem_nil bo), List.chain'_nil⟩
    | some a =>
      refine ⟨?_, List.chain'_singleton _⟩
      intro bo hbo
      simp only [coalesceGo, List.mem_singleton] at hbo
      rw [hbo]
      exact (hacc a rfl).1
  | cons b rest ih =>
    intro acc hall hchain hacc
    have hb : blockOk b := hall b (List.mem_cons_self _ _)
    have hrest : ∀ x ∈ rest, blockOk x := fun x hx =>
      hall x (List.mem_cons_of_mem _ hx)
    have hchainrest : chainedBlocks rest := hchain.tail
    have hlinkrest : ∀ h, rest.head? = some h → b.stop = h.start :=
      chain_head_link b rest hchain
    have tailOk :
        (∀ bo ∈ coalesceGo none rest, blockOk bo) ∧
          chainedBlocks (coalesceGo none rest) :=
      ih none hrest hchainrest (by intro a ha; cases ha)
    have consChain : List.Chain' (fun a c => a.stop = c.start)
        (b :: coalesceGo none rest) := by
      rw [List.chain'_cons']
      refine ⟨?_, tailOk.2⟩
      intro h hh
      cases rest with
      | nil => simp [coalesceGo] at hh
      | cons c rest2 =>
        by_cases hc : c.isAfk
        · simp only [coalesceGo, hc, if_pos] at hh
          have hhs := coalesceGo_some_head_start rest2 c h
            (Option.mem_def.mp hh)
          rw [hhs]
          exact hlinkrest c rfl
        · simp only [coalesceGo, hc, Bool.false_eq_true, if_false,
            List.head?_cons, Option.mem_def, Option.some_inj] at hh
          rw [← hh]
          exact hlinkrest c rfl
    by_cases hbafk : b.isAfk
    · cases acc with
      | none =>
        simp only [coalesceGo, hbafk, if_pos]
        refine ih (some b) hrest hchainrest ?_
        intro a ha
        rw [Option.some_inj] at ha
        rw [← ha]
        exact ⟨hb, hbafk, hlinkrest⟩
      | some a =>
        simp only [coalesceGo, hbafk, if_pos]
        obtain ⟨haok, haafk, halink⟩ := hacc a rfl
        have hablink : a.stop = b.start := halink b rfl
        refine ih (some (extendAfk a b)) hrest hchainrest ?_
        intro x hx
        rw [Option.some_inj] at hx
        rw [← hx]
        refine ⟨⟨?_, ?_, ?_, ?_, ?_⟩, ?_, ?_⟩
        · show a.duration + b.duration = b.stop - a.start
          have := haok.1
          have := hb.1
          omega
        · show a.start < b.stop
          have := haok.2.1
          have := hb.2.1
          omega
        · exact hb.2.2.1
        · exact haok.2.2.2.1
        · intro hfalse
          rw [extendAfk_isAfk] at hfalse
          rw [hfalse] at haafk
          cases haafk
        · rw [extendAfk_isAfk]
          exact haafk
        · intro h hh
          rw [extendAfk_stop]
          exact hlinkrest h hh
    · have hbfalse : b.isAfk = false := by
        cases h : b.isAfk
        · rfl
        · exact absurd h hbafk
      cases acc with
      | none =>
        simp only [coalesceGo, hbfalse, Bool.false_eq_true, if_false]
        constructor
        · intro bo hbo
          rcases List.mem_cons.mp hbo with h | h
          · rw [h]; exact hb
          · exact tailOk.1 bo h
        · exact consChain
      | some a =>
        simp only [coalesceGo, hbfalse, Bool.false_eq_true, if_false]
        obtain ⟨haok, haafk, halink⟩ := hacc a rfl
        constructor
        · intro bo hbo
          rcases List.mem_cons.mp hbo with h | h
          · rw [h]; exact haok
          · rcases List.mem_cons.mp h with h2 | h2
            · rw [h2]; exact hb
            · exact tailOk.1 bo h2
        · refine List.chain'_cons'.mpr ⟨?_, consChain⟩
          intro h hh
          simp only [List.head?_cons, Option.mem_def, Option.some_inj] at hh
          rw [← hh]
          exact halink b rfl

/-- Appending one block to a chained list whose last end meets it. -/
theorem chain_append_one (l : List Block) (x : Block)
    (hl : List.Chain' (fun a b => a.stop = b.start) l)
    (hlink : ∀ z, l.getLast? = some z → z.stop = x.start) :
    List.Chain' (fun a b => a.stop = b.start) (l ++ [x]) := by
  rw [List.chain'_append]
  refine ⟨hl, List.chain'_singleton _, ?_⟩
  intro a ha y hy
  simp only [List.head?_cons, Option.mem_def, Option.some_inj] at hy
  rw [← hy]
  exact hlink a (Option.mem_def.mp ha)

/-- The segmentation loop invariant: starting from a well-formed chained
state whose `last_active_block_end` is the last block's end at or before
the current time, and assuming no degenerate slot (claim C6's bug is not
triggered), the loop produces well-formed chained blocks. -/
theorem createGo_ok :
    ∀ (fuel : ℕ) (t : ℤ) (st : List Block × Option ℤ) (events : List Event),
      (∀ u : ℤ, (∃ k : ℕ, k < fuel ∧ u = t + 900 * (k : ℤ)) →
        getEventsInBlock u (u + 900) events ≠ [] →
        (analyzeBlock u (u + 900)
          (getEventsInBlock u (u + 900) events)).isSome) →
      t + 900 * fuel ≤ 75600 →
      21600 ≤ t →
      (∀ b ∈ st.1, blockOk b) →
      chainedBlocks st.1 →
      (st.2 = none → st.1 = []) →
      (∀ e0, st.2 = some e0 →
        (∃ z, st.1.getLast? = some z ∧ z.stop = e0) ∧ e0 ≤ t) →
      (∀ b ∈ (createGo events fuel t st).1, blockOk b) ∧
        chainedBlocks (createGo events fuel t st).1 := by
  intro fuel
  induction fuel with
  | zero =>
    intro t st events _ _ _ hA hB _ _
    exact ⟨hA, hB⟩
  | succ n ih =>
    intro t st events hH hfuel ht21 hA hB hC hD
    have hfuel' : t + 900 * ((n : ℤ) + 1) ≤ 75600 := by
      push_cast at hfuel
      omega
    rw [createGo]
    by_cases hbe : (getEventsInBlock t (t + 900) events).isEmpty
    · have hstep : slotStep events st t = st := by
        unfold slotStep
        rw [if_pos hbe]
      rw [hstep]
      refine ih (t + 900) st events ?_ (by omega) (by omega) hA hB hC ?_
      · intro u ⟨k, hk, hu⟩ hne
        exact hH u ⟨k + 1, by omega, by push_cast; omega⟩ hne
      · intro e0 he0
        obtain ⟨hz, he0t⟩ := hD e0 he0
        exact ⟨hz, by omega⟩
    · have hne : getEventsInBlock t (t + 900) events ≠ [] := by
        simpa [List.isEmpty_iff] using hbe
      have hsome := hH t ⟨0, by omega, by simp⟩ hne
      rw [Option.isSome_iff_exists] at hsome
      obtain ⟨b', hb'⟩ := hsome
      obtain ⟨hstart, hstop, hsu, hs2u, hdur, hafkf, -⟩ :=
        analyzeBlock_eq_some t (t + 900) _ b' hb'
      have hbok : blockOk b' := by
        refine ⟨?_, ?_, ?_, ?_, ?_⟩
        · rw [hdur, hstop, hstart]
        · rw [hstart, hstop]; omega
        · rw [hstop]; omega
        · rw [hstart]; exact ht21
        · intro _
          rw [hsu, hs2u, hstart, hstop]
          exact ⟨rfl, rfl⟩
      cases hlast : st.2 with
      | none =>
        have hempty := hC hlast
        have hstep : slotStep events st t = ([b'], some (t + 900)) := by
          unfold slotStep
          rw [if_neg hbe, hlast, hb', hempty]
          rfl
        rw [hstep]
        refine ih (t + 900) ([b'], some (t + 900)) events ?_ (by omega)
          (by omega) ?_ ?_ ?_ ?_
        · intro u ⟨k, hk, hu⟩ hne2
          exact hH u ⟨k + 1, by omega, by push_cast; omega⟩ hne2
        · intro b hb
          simp only [List.mem_singleton] at hb
          rw [hb]
          exact hbok
        · exact List.chain'_singleton _
        · intro h
          cases h
        · intro e0 he0
          rw [Option.some_inj] at he0
          exact ⟨⟨b', rfl, by rw [hstop, he0]⟩, by omega⟩
      | some e0 =>
        obtain ⟨⟨z, hzlast, hzstop⟩, he0t⟩ := hD e0 hlast
        have hzok : blockOk z := hA z (List.mem_of_mem_getLast? hzlast)
        by_cases hgap : e0 < t
        · have hstep : slotStep events st t =
              ((st.1 ++ [gapAfkBlock e0 t]) ++ [b'], some (t + 900)) := by
            unfold slotStep
            rw [if_neg hbe, hlast, hb']
            simp only [hgap, if_pos]
          rw [hstep]
          have hgapok : blockOk (gapAfkBlock e0 t) := by
            refine ⟨rfl, hgap, ?_, ?_, ?_⟩
            · show t ≤ 75600
              omega
            · show (21600 : ℤ) ≤ e0
              have h1 := hzok.2.2.2.1
              have h2 := hzok.2.1
              omega
            · intro h
              simp [gapAfkBlock] at h
          have hchain1 : List.Chain' (fun a b => a.stop = b.start)
              (st.1 ++ [gapAfkBlock e0 t]) := by
            refine chain_append_one st.1 _ hB ?_
            intro w hw
            rw [hzlast, Option.some_inj] at hw
            rw [← hw]
            exact hzstop
          have hchain2 : List.Chain' (fun a b => a.stop = b.start)
              ((st.1 ++ [gapAfkBlock e0 t]) ++ [b']) := by
            refine chain_append_one _ _ hchain1 ?_
            intro w hw
            rw [List.getLast?_concat, Option.some_inj] at hw
            rw [← hw, hstart]
            rfl
          refine ih (t + 900) _ events ?_ (by omega) (by omega) ?_ hchain2 ?_ ?_
          · intro u ⟨k, hk, hu⟩ hne2
            exact hH u ⟨k + 1, by omega, by push_cast; omega⟩
              hne2
          · intro b hb
            simp only [List.mem_append, List.mem_singleton] at hb
            rcases hb with (hb | hb) | hb
            · exact hA b hb
            · rw [hb]; exact hgapok
            · rw [hb]; exact hbok
          · intro h
            cases h
          · intro e1 he1
            rw [Option.some_inj] at he1
            exact ⟨⟨b', List.getLast?_concat _, by rw [hstop, he1]⟩, by omega⟩
        · have he0eq : e0 = t := le_antisymm he0t (not_lt.mp hgap)
          have hstep : slotStep events st t =
              (st.1 ++ [b'], some (t + 900)) := by
            unfold slotStep
            rw [if_neg hbe, hlast, hb']
            simp only [hgap, if_false]
          rw [hstep]
          have hchain2 : List.Chain' (fun a b => a.stop = b.start)
              (st.1 ++ [b']) := by
            refine chain_append_one _ _ hB ?_
            intro w hw
            rw [hzlast, Option.some_inj] at hw
            rw [← hw, hzstop, hstart, he0eq]
          refine ih (t + 900) _ events ?_ (by omega) (by omega) ?_ hchain2 ?_ ?_
          · intro u ⟨k, hk, hu⟩ hne2
            exact hH u ⟨k + 1, by omega, by push_cast; omega⟩
              hne2
          · intro b hb
            simp only [List.mem_append, List.mem_singleton] at hb
            rcases hb with hb | hb
            · exact hA b hb
            · rw [hb]; exact hbok
          · intro h
            cases h
          · intro e1 he1
            rw [Option.some_inj] at he1
            exact ⟨⟨b', List.getLast?_concat _, by rw [hstop, he1]⟩, by omega⟩

/-- Claim C1 (counterexample): a single 20-minute event starting 07:00
yields a timeline whose durations sum to 1800 seconds, while the day
window span minus the untracked trailing gap after the last active block
(which ends 07:30, instant 27000) is 5400 seconds: the untracked leading
gap 06:00-07:00 is also missing from the sum. -/
theorem c1_counterexample :
    ((analyze [⟨25200, 1200, "Terminal", "t", false⟩]).timelineBlocks.map
      Block.duration).sum = 1800 ∧
    ((analyze [⟨25200, 1200, "Terminal", "t", false⟩]).timelineBlocks.map
      Block.stop).getLast? = some 27000 ∧
    (1800 : ℤ) ≠ (75600 - 21600) - (75600 - 27000) := by
  refine ⟨by decide, by decide, by decide⟩

/-- Claim C1 (amended): when no slot triggers the degenerate-slot bug of
claim C6, the final timeline tiles one contiguous span with no double
counting: the sum of `duration` over `timeline_blocks` equals the span
from the first block's start to the last block's end — that is, the day
window span minus the untracked trailing gap after the last active block
and minus the (equally untracked) leading gap before the first active
block — and that span lies inside the 06:00-21:00 day window. -/
theorem c1_amended_sum (events : List Event)
    (hH : noDegenerateSlot (filterActiveEvents events)) :
    ∀ f z, (analyze events).timelineBlocks.head? = some f →
      (analyze events).timelineBlocks.getLast? = some z →
      ((analyze events).timelineBlocks.map Block.duration).sum =
        z.stop - f.start ∧ 21600 ≤ f.start ∧ z.stop ≤ 75600 := by
  intro f z hf hz
  unfold analyze at hf hz ⊢
  by_cases h1 : events.isEmpty
  · rw [if_pos h1] at hf
    cases hf
  · rw [if_neg h1] at hf hz ⊢
    by_cases h2 : (filterActiveEvents events).isEmpty
    · rw [if_pos h2] at hf
      cases hf
    · rw [if_neg h2] at hf hz ⊢
      set active := filterActiveEvents events with hactive
      set raw := createTimeBlocks 21600 75600 active with hraw
      have hnum : numSlots 21600 75600 = 60 := by decide
      have hrawok : (∀ b ∈ raw, blockOk b) ∧ chainedBlocks raw := by
        rw [hraw]
        unfold createTimeBlocks
        refine createGo_ok (numSlots 21600 75600) 21600 ([], none) active
          ?_ ?_ (by omega) ?_ List.chain'_nil ?_ ?_
        · intro u ⟨k, hk, hu⟩ hne
          rw [hnum] at hk
          have := hH k hk
          rw [← hu] at this
          exact this hne
        · rw [hnum]
          norm_num
        · intro b hb
          cases hb
        · intro _
          rfl
        · intro e0 he0
          cases he0
      have hmok : (∀ b ∈ mergeConsecutiveBlocks raw, blockOk b) ∧
          chainedBlocks (mergeConsecutiveBlocks raw) := by
        unfold mergeConsecutiveBlocks
        match raw, hrawok with
        | [], _ => exact ⟨fun b hb => absurd hb (List.not_mem_nil b),
            List.chain'_nil⟩
        | r :: rs, hrawok =>
          have h1ok := pass1_ok (r :: rs) hrawok.1 hrawok.2
          have hsok := significancePass_ok _ h1ok.1 h1ok.2
          exact coalesceGo_ok _ none hsok.1 hsok.2 (by intro a ha; cases ha)
      refine ⟨?_, ?_, ?_⟩
      · exact sum_duration_of_chain _ (fun b hb => (hmok.1 b hb).1) hmok.2
          f z hf hz
      · exact (hmok.1 f (List.mem_of_mem_head? hf)).2.2.2.1
      · exact (hmok.1 z (List.mem_of_mem_getLast? hz)).2.2.1

/-- Claim C1 (witness): one event in the first slot gives a one-block
timeline whose duration sum is that block's span. -/
theorem c1_amended_sum_witness :
    ((analyze [⟨21600, 900, "A", "x", false⟩]).timelineBlocks.map
      Block.duration).sum = c1WitnessBlock.stop - c1WitnessBlock.start ∧
      21600 ≤ c1WitnessBlock.start ∧ c1WitnessBlock.stop ≤ 75600 :=
  c1_amended_sum [⟨21600, 900, "A", "x", false⟩] (by decide) c1WitnessBlock
    c1WitnessBlock (by decide) (by decide)

/-- Claim C6 (evaluation at the failing input): the 06:30 slot has
overlapping events but no 60-second group, so the claim says it
contributes no block of any kind; the code instead emits the pending
gap-AFK block 06:15-06:30 at that slot's iteration and, because
`last_active_block_end` is not advanced, the next qualifying slot emits a
second, overlapping gap-AFK block 06:15-06:45, double-counting
06:15-06:30 in the raw sequence. -/
theorem c6_double_gap_emission :
    (createTimeBlocks 21600 75600 (filterActiveEvents c6Events)).map
      (fun b => (b.start, b.stop, b.duration, b.isAfk)) =
      [(21600, 22500, 900, false), (22500, 23400, 900, true),
       (22500, 24300, 1800, true), (24300, 25200, 900, false)] := by decide

/-! ### Idempotence of the merger (towards C7) -/

/-- Inserting into the stable descending sort permutes a cons. -/
theorem insertDesc_perm {α β : Type} [LinearOrder β] (f : α → β) (x : α) :
    ∀ l : List α, List.Perm (insertDesc f x l) (x :: l) := by
  intro l
  induction l with
  | nil => exact List.Perm.refl _
  | cons y ys ih =>
    unfold insertDesc
    by_cases h : f y ≤ f x
    · rw [if_pos h]
    · rw [if_neg h]
      exact (List.Perm.cons y ih).trans (List.Perm.swap x y ys)

/-- The stable descending sort is a permutation. -/
theorem sortDesc_perm {α β : Type} [LinearOrder β] (f : α → β) :
    ∀ l : List α, List.Perm (sortDesc f l) l := by
  intro l
  induction l with
  | nil => exact List.Perm.refl _
  | cons y ys ih =>
    show List.Perm (insertDesc f y (sortDesc f ys)) _
    exact (insertDesc_perm f y (sortDesc f ys)).trans (List.Perm.cons y ih)

/-- The head of an insertion is the new element or the old head. -/
theorem insertDesc_head {α β : Type} [LinearOrder β] (f : α → β) (x : α) :
    ∀ (l : List α) (h : α), (insertDesc f x l).head? = some h →
      h = x ∨ l.head? = some h := by
  intro l h hh
  cases l with
  | nil => exact Or.inl (Option.some.inj hh).symm
  | cons y ys =>
    unfold insertDesc at hh
    by_cases hle : f y ≤ f x
    · rw [if_pos hle] at hh
      exact Or.inl (Option.some.inj hh).symm
    · rw [if_neg hle] at hh
      exact Or.inr hh

/-- Insertion keeps the list sorted descending by the key. -/
theorem insertDesc_sorted {α β : Type} [LinearOrder β] (f : α → β) (x : α) :
    ∀ l : List α, List.Chain' (fun a b => f b ≤ f a) l →
      List.Chain' (fun a b => f b ≤ f a) (insertDesc f x l) := by
  intro l
  induction l with
  | nil => intro _; exact List.chain'_singleton _
  | cons y ys ih =>
    intro hch
    unfold insertDesc
    by_cases hle : f y ≤ f x
    · rw [if_pos hle]
      exact List.chain'_cons.mpr ⟨hle, hch⟩
    · rw [if_neg hle]
      refine List.chain'_cons'.mpr ⟨?_, ih hch.tail⟩
      intro h hh
      rcases insertDesc_head f x ys h hh with rfl | hmem
      · exact le_of_lt (lt_of_not_le hle)
      · exact (List.chain'_cons'.mp hch).1 h hmem

/-- The stable descending sort sorts. -/
theorem sortDesc_sorted {α β : Type} [LinearOrder β] (f : α → β) :
    ∀ l : List α, List.Chain' (fun a b => f b ≤ f a) (sortDesc f l) := by
  intro l
  induction l with
  | nil => exact List.chain'_nil
  | cons y ys ih => exact insertDesc_sorted f y (sortDesc f ys) ih

/-- The stable sort is the identity on a list already sorted descending. -/
theorem sortDesc_of_sorted {α β : Type} [LinearOrder β] (f : α → β) :
    ∀ l : List α, List.Chain' (fun a b => f b ≤ f a) l → sortDesc f l = l := by
  intro l
  induction l with
  | nil => intro _; rfl
  | cons y ys ih =>
    intro hch
    show insertDesc f y (sortDesc f ys) = y :: ys
    rw [ih hch.tail]
    cases ys with
    | nil => rfl
    | cons z zs =>
      unfold insertDesc
      rw [if_pos (List.chain'_cons.mp hch).1]

/-- Folding titles into a duplicate-free accumulator keeps it
duplicate-free. -/
theorem unionWindows_nodup (ws : List String) :
    ∀ acc : List String, acc.Nodup → (unionWindows acc ws).Nodup := by
  induction ws with
  | nil => intro acc h; exact h
  | cons w ws ih =>
    intro acc h
    show (unionWindows (if w ∈ acc then acc else acc ++ [w]) ws).Nodup
    by_cases hw : w ∈ acc
    · rw [if_pos hw]; exact ih acc h
    · rw [if_neg hw]
      refine ih _ ?_
      rw [List.nodup_append]
      refine ⟨h, List.nodup_singleton w, ?_⟩
      intro x hx hxw
      rw [List.mem_singleton] at hxw
      exact hw (hxw ▸ hx)

/-- Folding fresh, pairwise-distinct titles just appends them. -/
theorem unionWindows_append (ws : List String) :
    ∀ acc : List String, ws.Nodup → (∀ w ∈ ws, w ∉ acc) →
      unionWindows acc ws = acc ++ ws := by
  induction ws with
  | nil => intro acc _ _; exact (List.append_nil acc).symm
  | cons w ws ih =>
    intro acc hnd hfresh
    show unionWindows (if w ∈ acc then acc else acc ++ [w]) ws = acc ++ w :: ws
    rw [if_neg (hfresh w (List.mem_cons_self _ _))]
    have hfr : ∀ v ∈ ws, v ∉ acc ++ [w] := by
      intro v hv hv2
      rcases List.mem_append.mp hv2 with h1 | h1
      · exact hfresh v (List.mem_cons_of_mem _ hv) h1
      · rw [List.mem_singleton] at h1
        exact (List.nodup_cons.mp hnd).1 (h1 ▸ hv)
    rw [ih (acc ++ [w]) (List.nodup_cons.mp hnd).2 hfr, List.append_assoc]
    rfl

/-- Folding a duplicate-free title list into an empty accumulator is the
identity. -/
theorem unionWindows_nil (ws : List String) (h : ws.Nodup) :
    unionWindows [] ws = ws := by
  have := unionWindows_append ws [] h (by intro w _ hw; cases hw)
  simpa using this

/-- Adding a record under a key absent from the accumulator appends a
fresh entry. -/
theorem addSupport_fresh (s : Support) :
    ∀ acc : List (String × ConsEntry), (∀ p ∈ acc, p.1 ≠ s.app) →
      addSupport acc s =
        acc ++ [(s.app, ⟨s.duration, unionWindows [] s.windows, s.events⟩)] := by
  intro acc
  induction acc with
  | nil => intro _; rfl
  | cons q rest ih =>
    intro h
    obtain ⟨k, en⟩ := q
    simp only [addSupport]
    rw [if_neg (h (k, en) (List.mem_cons_self _ _)),
      ih (fun q hq => h q (List.mem_cons_of_mem _ hq))]
    rfl

/-- Every key in the accumulator after an insertion is an old key or the
new record's app. -/
theorem addSupport_key_mem (s : Support) :
    ∀ (acc : List (String × ConsEntry)) (p : String × ConsEntry),
      p ∈ addSupport acc s → p.1 ∈ acc.map Prod.fst ∨ p.1 = s.app := by
  intro acc
  induction acc with
  | nil =>
    intro p hp
    simp only [addSupport, List.mem_singleton] at hp
    exact Or.inr (by rw [hp])
  | cons q rest ih =>
    intro p hp
    obtain ⟨k, en⟩ := q
    simp only [addSupport] at hp
    by_cases hk : k = s.app
    · rw [if_pos hk] at hp
      rcases List.mem_cons.mp hp with h1 | h1
      · exact Or.inl (by rw [h1]; exact List.mem_cons_self _ _)
      · exact Or.inl (List.mem_cons_of_mem _ (List.mem_map_of_mem Prod.fst h1))
    · rw [if_neg hk] at hp
      rcases List.mem_cons.mp hp with h1 | h1
      · exact Or.inl (by rw [h1]; exact List.mem_cons_self _ _)
      · rcases ih p h1 with h2 | h2
        · exact Or.inl (List.mem_cons_of_mem _ h2)
        · exact Or.inr h2

/-- Insertion keeps the accumulator's keys duplicate-free. -/
theorem addSupport_keys_nodup (s : Support) :
    ∀ acc : List (String × ConsEntry), (acc.map Prod.fst).Nodup →
      ((addSupport acc s).map Prod.fst).Nodup := by
  intro acc
  induction acc with
  | nil => intro _; exact List.nodup_singleton _
  | cons q rest ih =>
    intro h
    obtain ⟨k, en⟩ := q
    rw [List.map_cons] at h
    have hk1 := (List.nodup_cons.mp h).1
    have hk2 := (List.nodup_cons.mp h).2
    simp only [addSupport]
    by_cases hks : k = s.app
    · rw [if_pos hks, List.map_cons]
      exact List.nodup_cons.mpr ⟨hk1, hk2⟩
    · rw [if_neg hks, List.map_cons]
      refine List.nodup_cons.mpr ⟨?_, ih hk2⟩
      intro hmem
      rcases List.mem_map.mp hmem with ⟨p, hp, hpk⟩
      rcases addSupport_key_mem s rest p hp with h2 | h2
      · rw [hpk] at h2
        exact hk1 h2
      · exact hks (hpk.symm.trans h2)

/-- Insertion keeps every accumulated window list duplicate-free. -/
theorem addSupport_windows_nodup (s : Support) :
    ∀ acc : List (String × ConsEntry), (∀ p ∈ acc, p.2.windows.Nodup) →
      ∀ p ∈ addSupport acc s, p.2.windows.Nodup := by
  intro acc
  induction acc with
  | nil =>
    intro _ p hp
    simp only [addSupport, List.mem_singleton] at hp
    rw [hp]
    exact unionWindows_nodup s.windows [] List.nodup_nil
  | cons q rest ih =>
    intro h p hp
    obtain ⟨k, en⟩ := q
    simp only [addSupport] at hp
    by_cases hks : k = s.app
    · rw [if_pos hks] at hp
      rcases List.mem_cons.mp hp with h1 | h1
      · rw [h1]
        exact unionWindows_nodup s.windows en.windows
          (h (k, en) (List.mem_cons_self _ _))
      · exact h p (List.mem_cons_of_mem _ h1)
    · rw [if_neg hks] at hp
      rcases List.mem_cons.mp hp with h1 | h1
      · rw [h1]; exact h (k, en) (List.mem_cons_self _ _)
      · exact ih (fun q hq => h q (List.mem_cons_of_mem _ hq)) p h1

/-- Folding pairwise-distinct fresh records appends them in order. -/
theorem foldl_addSupport_fresh :
    ∀ (l : List Support) (acc : List (String × ConsEntry)),
      (∀ s ∈ l, ∀ p ∈ acc, p.1 ≠ s.app) →
      List.Pairwise (fun s t => s.app ≠ t.app) l →
      l.foldl addSupport acc = acc ++ l.map
        (fun s => (s.app, ⟨s.duration, unionWindows [] s.windows, s.events⟩)) := by
  intro l
  induction l with
  | nil => intro acc _ _; exact (List.append_nil acc).symm
  | cons s l ih =>
    intro acc hfr hpw
    have hpw' := List.pairwise_cons.mp hpw
    have hfr' : ∀ t ∈ l, ∀ p ∈ acc ++
        [(s.app, (⟨s.duration, unionWindows [] s.windows, s.events⟩ : ConsEntry))],
        p.1 ≠ t.app := by
      intro t ht p hp
      rcases List.mem_append.mp hp with h1 | h1
      · exact hfr t (List.mem_cons_of_mem _ ht) p h1
      · rw [List.mem_singleton] at h1
        rw [h1]
        exact hpw'.1 t ht
    show l.foldl addSupport (addSupport acc s) = _
    rw [addSupport_fresh s acc (hfr s (List.mem_cons_self _ _)),
      ih _ hfr' hpw'.2]
    simp

/-- Keys of the consolidation fold are duplicate-free. -/
theorem foldl_addSupport_keys_nodup :
    ∀ (l : List Support) (acc : List (String × ConsEntry)),
      (acc.map Prod.fst).Nodup →
      ((l.foldl addSupport acc).map Prod.fst).Nodup := by
  intro l
  induction l with
  | nil => intro acc h; exact h
  | cons s l ih => intro acc h; exact ih _ (addSupport_keys_nodup s acc h)

/-- Window lists of the consolidation fold are duplicate-free. -/
theorem foldl_addSupport_windows_nodup :
    ∀ (l : List Support) (acc : List (String × ConsEntry)),
      (∀ p ∈ acc, p.2.windows.Nodup) →
      ∀ p ∈ l.foldl addSupport acc, p.2.windows.Nodup := by
  intro l
  induction l with
  | nil => intro acc h; exact h
  | cons s l ih => intro acc h; exact ih _ (addSupport_windows_nodup s acc h)

/-- Each consolidated supporting record has duplicate-free windows and
UTC bounds recomputed from its own events. -/
theorem csupp_mem (l : List Support) (s : Support) (hs : s ∈ csupp l) :
    s.windows.Nodup ∧ s.startUtc = minStart s.events ∧
      s.stopUtc = maxStop s.events := by
  simp only [csupp] at hs
  rcases List.mem_map.mp hs with ⟨p, hp, hps⟩
  rw [mem_sortDesc] at hp
  refine ⟨?_, ?_, ?_⟩
  · rw [← hps]
    exact foldl_addSupport_windows_nodup l [] (by intro q hq; cases hq) p hp
  · rw [← hps]
    rfl
  · rw [← hps]
    rfl

/-- The consolidated supporting list is sorted descending by duration. -/
theorem csupp_sorted (l : List Support) :
    List.Chain' (fun s t => t.duration ≤ s.duration) (csupp l) := by
  show List.Chain' _ ((sortDesc (fun p => p.2.duration)
    (l.foldl addSupport [])).map consToSupport)
  rw [List.chain'_map]
  exact sortDesc_sorted (fun p => p.2.duration) (l.foldl addSupport [])

/-- Consolidated supporting records carry pairwise-distinct app names. -/
theorem csupp_apps (l : List Support) :
    List.Pairwise (fun s t => s.app ≠ t.app) (csupp l) := by
  show List.Pairwise _ ((sortDesc (fun p => p.2.duration)
    (l.foldl addSupport [])).map consToSupport)
  rw [List.pairwise_map]
  have hnd : ((l.foldl addSupport []).map Prod.fst).Nodup :=
    foldl_addSupport_keys_nodup l [] List.nodup_nil
  have hpw : List.Pairwise (fun p q : String × ConsEntry => p.1 ≠ q.1)
      (l.foldl addSupport []) := List.pairwise_map.mp hnd
  have hsym : ∀ ⦃p q : String × ConsEntry⦄,
      (consToSupport p).app ≠ (consToSupport q).app →
      (consToSupport q).app ≠ (consToSupport p).app := by
    intro a b h heq
    exact h heq.symm
  have hperm := sortDesc_perm (fun p : String × ConsEntry => p.2.duration)
    (l.foldl addSupport [])
  exact (List.Perm.pairwise_iff (fun h => hsym h) hperm).mpr hpw

/-- Consolidation is idempotent. -/
theorem csupp_idem (l : List Support) : csupp (csupp l) = csupp l := by
  have hpw := csupp_apps l
  have hsort := csupp_sorted l
  have h1 : (csupp l).foldl addSupport [] = (csupp l).map
      (fun s => (s.app,
        (⟨s.duration, unionWindows [] s.windows, s.events⟩ : ConsEntry))) := by
    have := foldl_addSupport_fresh (csupp l) []
      (by intro s _ p hp; cases hp) hpw
    simpa using this
  have h2 : (csupp l).map
      (fun s => (s.app,
        (⟨s.duration, unionWindows [] s.windows, s.events⟩ : ConsEntry))) =
      (csupp l).map
      (fun s => (s.app, (⟨s.duration, s.windows, s.events⟩ : ConsEntry))) := by
    apply List.map_congr_left
    intro s hs
    rw [unionWindows_nil s.windows (csupp_mem l s hs).1]
  have h3 : sortDesc (fun p => p.2.duration) ((csupp l).map
      (fun s => (s.app, (⟨s.duration, s.windows, s.events⟩ : ConsEntry)))) =
      (csupp l).map
      (fun s => (s.app, (⟨s.duration, s.windows, s.events⟩ : ConsEntry))) := by
    apply sortDesc_of_sorted
    rw [List.chain'_map]
    exact hsort
  have h4 : ∀ s ∈ csupp l, (consToSupport ∘
      (fun s => (s.app, (⟨s.duration, s.windows, s.events⟩ : ConsEntry)))) s =
      id s := by
    intro s hs
    obtain ⟨_, hsu, htu⟩ := csupp_mem l s hs
    show consToSupport (s.app, ⟨s.duration, s.windows, s.events⟩) = s
    have hstep : consToSupport (s.app,
        (⟨s.duration, s.windows, s.events⟩ : ConsEntry)) =
        { app := s.app, windows := s.windows, duration := s.duration,
          startUtc := minStart s.events, stopUtc := maxStop s.events,
          events := s.events } := rfl
    rw [hstep, ← hsu, ← htu]
  show (sortDesc (fun p => p.2.duration)
    ((csupp l).foldl addSupport [])).map consToSupport = csupp l
  rw [h1, h2, h3, List.map_map, List.map_congr_left h4, List.map_id]

/-- Consolidating an already consolidated supporting list changes
nothing. -/
theorem consolidateSupporting_idem (blocks : List Block) :
    csupp (consolidateSupporting blocks) = consolidateSupporting blocks :=
  csupp_idem _

/-- Consolidating one block consolidates that block's supporting list. -/
theorem consolidateSupporting_single (b : Block) :
    consolidateSupporting [b] = csupp b.supporting := by
  show csupp ([b].map Block.supporting).flatten = csupp b.supporting
  simp

/-- Starting a fresh accumulator from a block with an already consolidated
supporting list changes nothing. -/
theorem startAcc_eq_self (b : Block) (h : csupp b.supporting = b.supporting) :
    startAcc b = b := by
  show { b with supporting := consolidateSupporting [b] } = b
  rw [consolidateSupporting_single, h]

/-- The supporting list installed by `startAcc` is consolidated. -/
theorem startAcc_suppC (b : Block) :
    csupp (startAcc b).supporting = (startAcc b).supporting :=
  consolidateSupporting_idem [b]

/-- The supporting list installed by a merge step is consolidated. -/
theorem extendBlock_suppC (cur next : Block) :
    csupp (extendBlock cur next).supporting =
      (extendBlock cur next).supporting := by
  show csupp (consolidateSupporting _) = consolidateSupporting _
  exact consolidateSupporting_idem _

/-- `extendAfk` leaves the supporting list unchanged. -/
theorem extendAfk_supporting (a b : Block) :
    (extendAfk a b).supporting = a.supporting := rfl

/-- Every output of the pass-1 loop carries a consolidated supporting
list, given the accumulator does. -/
theorem pass1Go_suppC :
    ∀ (l : List Block) (cur : Block),
      csupp cur.supporting = cur.supporting →
      ∀ b ∈ pass1Go cur l, csupp b.supporting = b.supporting := by
  intro l
  induction l with
  | nil =>
    intro cur hcur b hb
    simp only [pass1Go, List.mem_singleton] at hb
    rw [hb]
    exact hcur
  | cons next rest ih =>
    intro cur hcur b hb
    simp only [pass1Go] at hb
    by_cases hafk : (cur.isAfk || next.isAfk) = true
    · rw [if_pos hafk] at hb
      rcases List.mem_cons.mp hb with h1 | h1
      · rw [h1]; exact hcur
      · exact ih _ (startAcc_suppC next) b h1
    · rw [if_neg hafk] at hb
      by_cases hdec : mergeDecision cur next = true
      · rw [if_pos hdec] at hb
        exact ih _ (extendBlock_suppC cur next) b hb
      · rw [if_neg hdec] at hb
        rcases List.mem_cons.mp hb with h1 | h1
        · rw [h1]; exact hcur
        · exact ih _ (startAcc_suppC next) b h1

/-- Every output block of pass 1 carries a consolidated supporting
list. -/
theorem pass1_suppC (l : List Block) :
    ∀ b ∈ pass1 l, csupp b.supporting = b.supporting := by
  cases l with
  | nil => intro b hb; cases hb
  | cons c rest =>
    intro b hb
    exact pass1Go_suppC rest (startAcc c) (startAcc_suppC c) b hb

/-- The significance filter keeps supporting lists consolidated. -/
theorem sigStep_suppC (b : Block) (h : csupp b.supporting = b.supporting) :
    csupp (sigStep b).supporting = (sigStep b).supporting := by
  unfold sigStep
  split_ifs
  · exact h
  · exact h
  · rfl

/-- Pass 2 keeps supporting lists consolidated. -/
theorem coalesceGo_suppC :
    ∀ (l : List Block) (acc : Option Block),
      (∀ a, acc = some a → csupp a.supporting = a.supporting) →
      (∀ b ∈ l, csupp b.supporting = b.supporting) →
      ∀ b ∈ coalesceGo acc l, csupp b.supporting = b.supporting := by
  intro l
  induction l with
  | nil =>
    intro acc hacc _ b hb
    cases acc with
    | none => simp [coalesceGo] at hb
    | some a =>
      simp only [coalesceGo, List.mem_singleton] at hb
      rw [hb]
      exact hacc a rfl
  | cons c rest ih =>
    intro acc hacc hl b hb
    by_cases hc : c.isAfk = true
    · cases acc with
      | none =>
        rw [show coalesceGo none (c :: rest) = coalesceGo (some c) rest from by
          simp only [coalesceGo]; rw [if_pos hc]] at hb
        exact ih _
          (by intro x hx; cases hx; exact hl c (List.mem_cons_self _ _))
          (fun x hx => hl x (List.mem_cons_of_mem _ hx)) b hb
      | some a =>
        rw [show coalesceGo (some a) (c :: rest) =
            coalesceGo (some (extendAfk a c)) rest from by
          simp only [coalesceGo]; rw [if_pos hc]] at hb
        refine ih _ ?_ (fun x hx => hl x (List.mem_cons_of_mem _ hx)) b hb
        intro x hx
        cases hx
        rw [extendAfk_supporting]
        exact hacc a rfl
    · cases acc with
      | none =>
        rw [show coalesceGo none (c :: rest) = c :: coalesceGo none rest from by
          simp only [coalesceGo]; rw [if_neg hc]] at hb
        rcases List.mem_cons.mp hb with h1 | h1
        · rw [h1]; exact hl c (List.mem_cons_self _ _)
        · exact ih none (by intro x hx; cases hx)
            (fun x hx => hl x (List.mem_cons_of_mem _ hx)) b h1
      | some a =>
        rw [show coalesceGo (some a) (c :: rest) =
            a :: c :: coalesceGo none rest from by
          simp only [coalesceGo]; rw [if_neg hc]] at hb
        rcases List.mem_cons.mp hb with h1 | h1
        · rw [h1]; exact hacc a rfl
        · rcases List.mem_cons.mp h1 with h2 | h2
          · rw [h2]; exact hl c (List.mem_cons_self _ _)
          · exact ih none (by intro x hx; cases hx)
              (fun x hx => hl x (List.mem_cons_of_mem _ hx)) b h2

/-- The head of the pass-1 loop output keeps the accumulator's AFK flag
and merge-relevant main-activity fields. -/
theorem pass1Go_head_fields :
    ∀ (l : List Block) (cur h : Block), (pass1Go cur l).head? = some h →
      h.isAfk = cur.isAfk ∧ h.main.rawApp = cur.main.rawApp ∧
      h.main.primaryWindow = cur.main.primaryWindow ∧
      h.main.windows = cur.main.windows := by
  intro l
  induction l with
  | nil =>
    intro cur h hh
    have hc : cur = h := Option.some.inj hh
    rw [← hc]
    exact ⟨rfl, rfl, rfl, rfl⟩
  | cons next rest ih =>
    intro cur h hh
    simp only [pass1Go] at hh
    by_cases hafk : (cur.isAfk || next.isAfk) = true
    · rw [if_pos hafk] at hh
      have hc : cur = h := Option.some.inj hh
      rw [← hc]
      exact ⟨rfl, rfl, rfl, rfl⟩
    · rw [if_neg hafk] at hh
      by_cases hdec : mergeDecision cur next = true
      · rw [if_pos hdec] at hh
        have hf := ih (extendBlock cur next) h hh
        refine ⟨?_, ?_, ?_, ?_⟩
        · rw [hf.1, extendBlock_isAfk]
        · rw [hf.2.1, extendBlock_main_rawApp]
        · rw [hf.2.2.1, extendBlock_main_primaryWindow]
        · rw [hf.2.2.2, extendBlock_main_windows]
      · rw [if_neg hdec] at hh
        have hc : cur = h := Option.some.inj hh
        rw [← hc]
        exact ⟨rfl, rfl, rfl, rfl⟩

/-- Merge-guard congruence: the decision reads only the raw app, primary
window and window set of the two main activities. -/
theorem mergeDecision_congr (u u' v v' : Block)
    (h1 : u.main.rawApp = u'.main.rawApp)
    (h2 : u.main.primaryWindow = u'.main.primaryWindow)
    (h3 : u.main.windows = u'.main.windows)
    (h4 : v.main.rawApp = v'.main.rawApp)
    (h5 : v.main.primaryWindow = v'.main.primaryWindow)
    (h6 : v.main.windows = v'.main.windows) :
    mergeDecision u v = mergeDecision u' v' := by
  simp only [mergeDecision, sameMainWindows, h1, h2, h3, h4, h5, h6]

/-- Adjacent output blocks of the pass-1 loop would not merge again. -/
theorem pass1Go_chain :
    ∀ (l : List Block) (cur : Block),
      List.Chain' mergeApart (pass1Go cur l) := by
  intro l
  induction l with
  | nil => intro cur; exact List.chain'_singleton _
  | cons next rest ih =>
    intro cur
    simp only [pass1Go]
    by_cases hafk : (cur.isAfk || next.isAfk) = true
    · rw [if_pos hafk]
      refine List.chain'_cons'.mpr ⟨?_, ih _⟩
      intro h hh
      have hf := pass1Go_head_fields rest (startAcc next) h hh
      have hor := hafk
      simp only [Bool.or_eq_true] at hor
      rcases hor with hcur | hnext
      · exact Or.inl hcur
      · refine Or.inr (Or.inl ?_)
        rw [hf.1, startAcc_isAfk]
        exact hnext
    · rw [if_neg hafk]
      by_cases hdec : mergeDecision cur next = true
      · rw [if_pos hdec]
        exact ih _
      · rw [if_neg hdec]
        refine List.chain'_cons'.mpr ⟨?_, ih _⟩
        intro h hh
        have hf := pass1Go_head_fields rest (startAcc next) h hh
        refine Or.inr (Or.inr ?_)
        have hcong : mergeDecision cur h = mergeDecision cur next := by
          refine mergeDecision_congr cur cur h next rfl rfl rfl ?_ ?_ ?_
          · rw [hf.2.1, startAcc_main]
          · rw [hf.2.2.1, startAcc_main]
          · rw [hf.2.2.2, startAcc_main]
        rw [hcong]
        simpa using hdec

/-- Pass 1 outputs a would-not-merge chain. -/
theorem pass1_chain (l : List Block) : List.Chain' mergeApart (pass1 l) := by
  cases l with
  | nil => exact List.chain'_nil
  | cons c rest => exact pass1Go_chain rest (startAcc c)

/-- The significance filter either fixes a block or makes it AFK. -/
theorem sigStep_cases (b : Block) :
    sigStep b = b ∨ (sigStep b).isAfk = true := by
  unfold sigStep
  split_ifs
  · exact Or.inl rfl
  · exact Or.inl rfl
  · exact Or.inr rfl

/-- The significance filter preserves the would-not-merge chain. -/
theorem sig_chain (l : List Block) (h : List.Chain' mergeApart l) :
    List.Chain' mergeApart (significancePass l) := by
  show List.Chain' mergeApart (l.map sigStep)
  rw [List.chain'_map]
  refine h.imp ?_
  intro a b hab
  rcases sigStep_cases a with ha | ha
  · rcases sigStep_cases b with hb | hb
    · rw [ha, hb]; exact hab
    · exact Or.inr (Or.inl hb)
  · exact Or.inl ha

/-- The head of a pending-accumulator coalescing run keeps the
accumulator's AFK flag. -/
theorem coalesceGo_head_isAfk :
    ∀ (l : List Block) (a h : Block),
      (coalesceGo (some a) l).head? = some h → h.isAfk = a.isAfk := by
  intro l
  induction l with
  | nil =>
    intro a h hh
    have hc : a = h := Option.some.inj hh
    rw [← hc]
  | cons b rest ih =>
    intro a h hh
    by_cases hb : b.isAfk = true
    · rw [show coalesceGo (some a) (b :: rest) =
          coalesceGo (some (extendAfk a b)) rest from by
        simp only [coalesceGo]; rw [if_pos hb]] at hh
      have := ih (extendAfk a b) h hh
      rw [extendAfk_isAfk] at this
      exact this
    · rw [show coalesceGo (some a) (b :: rest) =
          a :: b :: coalesceGo none rest from by
        simp only [coalesceGo]; rw [if_neg hb]] at hh
      have hc : a = h := Option.some.inj hh
      rw [← hc]

/-- After pass-2 coalescing of a would-not-merge chain, adjacent blocks
are fully separated: never both AFK, and never mergeable when both
active. -/
theorem coalesce_chain :
    ∀ l : List Block, List.Chain' mergeApart l →
      List.Chain' sessionApart (coalesceGo none l) ∧
      ∀ a : Block, a.isAfk = true →
        List.Chain' sessionApart (coalesceGo (some a) l) := by
  intro l
  induction l with
  | nil =>
    intro _
    exact ⟨List.chain'_nil, fun a _ => List.chain'_singleton a⟩
  | cons b rest ih =>
    intro hch
    have ihr := ih hch.tail
    have hmain : b.isAfk = false →
        List.Chain' sessionApart (b :: coalesceGo none rest) := by
      intro hbf
      refine List.chain'_cons'.mpr ⟨?_, ihr.1⟩
      intro h hh
      cases rest with
      | nil => simp [coalesceGo] at hh
      | cons c rest2 =>
        by_cases hc : c.isAfk = true
        · have hh' : (coalesceGo (some c) rest2).head? = some h := by
            rw [show coalesceGo none (c :: rest2) = coalesceGo (some c) rest2
                from by simp only [coalesceGo]; rw [if_pos hc]] at hh
            exact hh
          have hhafk : h.isAfk = true := by
            rw [coalesceGo_head_isAfk rest2 c h hh']
            exact hc
          constructor
          · rintro ⟨h1, _⟩
            rw [hbf] at h1
            exact Bool.noConfusion h1
          · intro _ hhf
            rw [hhafk] at hhf
            exact Bool.noConfusion hhf
        · rw [show coalesceGo none (c :: rest2) = c :: coalesceGo none rest2
              from by simp only [coalesceGo]; rw [if_neg hc]] at hh
          have hcEq : c = h := Option.some.inj hh
          have hcf : c.isAfk = false := by
            cases hcc : c.isAfk
            · rfl
            · exact absurd hcc hc
          have hm : mergeApart b c := (List.chain'_cons.mp hch).1
          constructor
          · rintro ⟨h1, _⟩
            rw [hbf] at h1
            exact Bool.noConfusion h1
          · intro _ _
            rw [← hcEq]
            rcases hm with hm1 | hm2 | hm3
            · rw [hbf] at hm1
              exact Bool.noConfusion hm1
            · rw [hcf] at hm2
              exact Bool.noConfusion hm2
            · exact hm3
    refine ⟨?_, ?_⟩
    · by_cases hb : b.isAfk = true
      · rw [show coalesceGo none (b :: rest) = coalesceGo (some b) rest from by
          simp only [coalesceGo]; rw [if_pos hb]]
        exact ihr.2 b hb
      · have hbf : b.isAfk = false := by
          cases hbb : b.isAfk
          · rfl
          · exact absurd hbb hb
        rw [show coalesceGo none (b :: rest) = b :: coalesceGo none rest from by
          simp only [coalesceGo]; rw [if_neg hb]]
        exact hmain hbf
    · intro a ha
      by_cases hb : b.isAfk = true
      · rw [show coalesceGo (some a) (b :: rest) =
            coalesceGo (some (extendAfk a b)) rest from by
          simp only [coalesceGo]; rw [if_pos hb]]
        refine ihr.2 _ ?_
        rw [extendAfk_isAfk]
        exact ha
      · have hbf : b.isAfk = false := by
          cases hbb : b.isAfk
          · rfl
          · exact absurd hbb hb
        rw [show coalesceGo (some a) (b :: rest) =
            a :: b :: coalesceGo none rest from by
          simp only [coalesceGo]; rw [if_neg hb]]
        refine List.chain'_cons.mpr ⟨?_, hmain hbf⟩
        constructor
        · rintro ⟨_, h2⟩
          rw [hbf] at h2
          exact Bool.noConfusion h2
        · intro haf _
          rw [ha] at haf
          exact Bool.noConfusion haf

/-- The pass-1 loop is the identity on a fully separated chain of blocks
with consolidated supporting lists. -/
theorem pass1Go_id :
    ∀ (l : List Block) (cur : Block),
      List.Chain' sessionApart (cur :: l) →
      (∀ b ∈ l, csupp b.supporting = b.supporting) →
      pass1Go cur l = cur :: l := by
  intro l
  induction l with
  | nil => intro cur _ _; rfl
  | cons next rest ih =>
    intro cur hch hsupp
    have hsep : sessionApart cur next := (List.chain'_cons.mp hch).1
    have hstart : startAcc next = next :=
      startAcc_eq_self next (hsupp next (List.mem_cons_self _ _))
    simp only [pass1Go]
    by_cases hafk : (cur.isAfk || next.isAfk) = true
    · rw [if_pos hafk, hstart,
        ih next hch.tail (fun x hx => hsupp x (List.mem_cons_of_mem _ hx))]
    · rw [if_neg hafk]
      have hor := hafk
      simp only [Bool.or_eq_true, not_or, Bool.not_eq_true] at hor
      have hdec : mergeDecision cur next = false := hsep.2 hor.1 hor.2
      have hdec' : ¬ mergeDecision cur next = true := by simp [hdec]
      rw [if_neg hdec', hstart,
        ih next hch.tail (fun x hx => hsupp x (List.mem_cons_of_mem _ hx))]

/-- Pass 1 is the identity on a fully separated chain of blocks with
consolidated supporting lists. -/
theorem pass1_id (l : List Block) (hch : List.Chain' sessionApart l)
    (hsupp : ∀ b ∈ l, csupp b.supporting = b.supporting) : pass1 l = l := by
  cases l with
  | nil => rfl
  | cons c rest =>
    show pass1Go (startAcc c) rest = c :: rest
    rw [startAcc_eq_self c (hsupp c (List.mem_cons_self _ _))]
    exact pass1Go_id rest c hch
      (fun x hx => hsupp x (List.mem_cons_of_mem _ hx))

/-- The significance filter is the identity when every block is AFK or
significant. -/
theorem significancePass_id (l : List Block)
    (h : ∀ b ∈ l, b.isAfk = true ∨ (10 : ℚ) ≤ b.main.percentage) :
    significancePass l = l := by
  show l.map sigStep = l
  have hid : ∀ b ∈ l, sigStep b = id b := by
    intro b hb
    show sigStep b = b
    rcases h b hb with hafk | hpct
    · unfold sigStep
      rw [if_pos hafk]
    · by_cases hafk : b.isAfk = true
      · unfold sigStep
        rw [if_pos hafk]
      · unfold sigStep
        rw [if_neg hafk, if_pos hpct]
  rw [List.map_congr_left hid, List.map_id]

/-- Pass 2 is the identity when no two adjacent blocks are both AFK. -/
theorem coalesceGo_id :
    ∀ l : List Block, List.Chain' notBothAfk l → coalesceGo none l = l := by
  intro l
  induction l with
  | nil => intro _; rfl
  | cons b rest ih =>
    intro hch
    by_cases hb : b.isAfk = true
    · cases rest with
      | nil =>
        rw [show coalesceGo none [b] = coalesceGo (some b) [] from by
          simp only [coalesceGo]; rw [if_pos hb]]
        rfl
      | cons c rest2 =>
        have hc : c.isAfk = false := by
          have hnb : notBothAfk b c := (List.chain'_cons.mp hch).1
          cases hcc : c.isAfk
          · rfl
          · exact absurd ⟨hb, hcc⟩ hnb
        have hc' : ¬ c.isAfk = true := by simp [hc]
        have h1 : coalesceGo none (b :: c :: rest2) =
            b :: c :: coalesceGo none rest2 := by
          rw [show coalesceGo none (b :: c :: rest2) =
              coalesceGo (some b) (c :: rest2) from by
            simp only [coalesceGo]; rw [if_pos hb]]
          simp only [coalesceGo]
          rw [if_neg hc']
        have h2 : coalesceGo none (c :: rest2) =
            c :: coalesceGo none rest2 := by
          simp only [coalesceGo]; rw [if_neg hc']
        have h3 : coalesceGo none (c :: rest2) = c :: rest2 := ih hch.tail
        rw [h2] at h3
        injection h3 with _ h4
        rw [h1, h4]
    · have h5 : coalesceGo none (b :: rest) = b :: coalesceGo none rest := by
        simp only [coalesceGo]; rw [if_neg hb]
      rw [h5, ih hch.tail]

/-- AFK coalescing is the identity when no two adjacent blocks are both
AFK. -/
theorem afkCoalesce_id (l : List Block) (h : List.Chain' notBothAfk l) :
    afkCoalesce l = l := coalesceGo_id l h

/-- The merger is the identity on a fully separated chain of significant
blocks with consolidated supporting lists. -/
theorem merge_id (y : List Block)
    (hch : List.Chain' sessionApart y)
    (hsupp : ∀ b ∈ y, csupp b.supporting = b.supporting)
    (hpct : ∀ b ∈ y, b.isAfk = true ∨ (10 : ℚ) ≤ b.main.percentage) :
    mergeConsecutiveBlocks y = y := by
  cases y with
  | nil => rfl
  | cons c rest =>
    show afkCoalesce (significancePass (pass1 (c :: rest))) = c :: rest
    rw [pass1_id _ hch hsupp, significancePass_id _ hpct,
      afkCoalesce_id _ (hch.imp (fun u v h => h.1))]

/-- Every output block of the merger carries a consolidated supporting
list. -/
theorem merged_suppC (l : List Block) :
    ∀ b ∈ mergeConsecutiveBlocks l, csupp b.supporting = b.supporting := by
  cases l with
  | nil => intro b hb; cases hb
  | cons c rest =>
    intro b hb
    have hb' : b ∈ coalesceGo none (significancePass (pass1 (c :: rest))) := hb
    refine coalesceGo_suppC _ none (by intro x hx; cases hx) ?_ b hb'
    intro x hx
    rcases List.mem_map.mp hx with ⟨z, hz, hzx⟩
    rw [← hzx]
    exact sigStep_suppC z (pass1_suppC _ z hz)

/-- Adjacent output blocks of the merger are fully separated. -/
theorem merged_chain (l : List Block) :
    List.Chain' sessionApart (mergeConsecutiveBlocks l) := by
  cases l with
  | nil => exact List.chain'_nil
  | cons c rest =>
    show List.Chain' sessionApart
      (coalesceGo none (significancePass (pass1 (c :: rest))))
    exact (coalesce_chain _ (sig_chain _ (pass1_chain _))).1

/-- Every output block of the merger is AFK or significant. -/
theorem merged_pct (l : List Block) :
    ∀ b ∈ mergeConsecutiveBlocks l,
      b.isAfk = true ∨ (10 : ℚ) ≤ b.main.percentage := by
  intro b hb
  cases hbafk : b.isAfk
  · exact Or.inr (merged_nonafk_ge l b hb hbafk)
  · exact Or.inl rfl

/-- Claim C7: running the merge, significance-filter and AFK-coalescing
passes on a sequence that is already their output returns it unchanged:
`_merge_consecutive_blocks` is idempotent on its own output. -/
theorem c7_merge_idempotent (blocks : List Block) :
    mergeConsecutiveBlocks (mergeConsecutiveBlocks blocks) =
      mergeConsecutiveBlocks blocks :=
  merge_id _ (merged_chain blocks) (merged_suppC blocks) (merged_pct blocks)

example : pyRound 900 = 900 := by decide
example : pyRound (mkRat 5 2) = 2 := by decide
example : pyRound (mkRat 3 2) = 2 := by decide
example : pyRound (mkRat (-1) 2) = 0 := by decide
example : pyRound1 (mkRat 100 3) = mkRat 333 10 := by decide
example : pctValue 300 900 = mkRat 333 10 := by decide
example : pctValue 900 900 = 100 := by decide
example : pyHour 76500 = 21 := by decide
example : pyReplaceHour21 76500 = 75600 := by decide
example : numSlots 21600 75600 = 60 := by decide

example :
    ((analyze [⟨25200, 1200, "Terminal", "t", false⟩]).timelineBlocks.map
      Block.duration).sum = 1800 := by decide

example :
    ((analyze [⟨21600, 900, "A", "x", false⟩,
               ⟨22500, 450, "A", "x", false⟩]).timelineBlocks.map fun b =>
      (b.duration, b.main.duration, b.main.percentage)) = [(1800, 1350, 100)] := by
  decide
